import Mathlib

/-!
# Verification of the wikitextparser span-tracking engine

This file gives a shallow embedding of `src/wikitextparser/wikitextparser.py`:
the span table, the rebase engine (`_shrink_span_update` / `_extend_span_update`
and the `string` setter), the masking fixpoint tokenizer (`_get_spans`), the
section builder (`sections`) and the per-kind accessors, together with proofs
of the specified properties.

Text is modelled as `List Char`; spans are pairs of natural numbers.
-/

namespace WTP

/-- A `(start, end)` half-open interval into the buffer. -/
abbrev Span := Nat × Nat

/-- The span table: category key -> ordered list of spans
(the Python `self._spans` dict). -/
abbrev SpanTable := List (String × List Span)

/-- A document: the single buffer (`self._lststr[0]`) plus the span table. -/
structure Doc where
  buffer : List Char
  spans : SpanTable
  deriving Repr, DecidableEq

/-- Look up a category's span list (`self._spans[key]`), `none` on a missing
key (Python `KeyError`). -/
def lookupSpans (t : SpanTable) (k : String) : Option (List Span) :=
  (t.find? (fun p => p.1 == k)).map (fun p => p.2)

/-- `self._get_span()` of the node `(k, i)`: entry `i` of category `k`. -/
def nodeSpan (d : Doc) (k : String) (i : Nat) : Option Span :=
  (lookupSpans d.spans k).bind (fun l => l[i]?)

/-- Python slice `l[s:e]` for natural indices (clamping semantics). -/
def pySlice (l : List Char) (s e : Nat) : List Char :=
  (l.take e).drop s

/-- The node's current text `Buffer[start..end]`. -/
def nodeText (d : Doc) (k : String) (i : Nat) : Option (List Char) :=
  (nodeSpan d k i).map (fun sp => pySlice d.buffer sp.1 sp.2)

/-- One span's update in `_extend_span_update(astart, alength)`. -/
def extendSpan (astart alength : Nat) (sp : Span) : Span :=
  if astart < sp.1 then
    -- added part is before the span
    (sp.1 + alength, sp.2 + alength)
  else if sp.1 ≤ astart ∧ astart < sp.2 then
    -- added part is inside the span
    (sp.1, sp.2 + alength)
  else sp

/-- One span's update in `_shrink_span_update(rmstart, rmend)`; the local
`rmlength = rmend - rmstart` is inlined. -/
def shrinkSpan (rmstart rmend : Nat) (sp : Span) : Span :=
  if sp.2 ≤ rmstart then sp
  else if rmend ≤ sp.1 then
    -- removed part is before the span
    (sp.1 - (rmend - rmstart), sp.2 - (rmend - rmstart))
  else if rmstart < sp.1 then
    if rmend ≤ sp.2 then (rmstart, sp.2 - (rmend - rmstart))
    else (rmstart, rmstart)
  else
    if rmend ≤ sp.2 then (sp.1, sp.2 - (rmend - rmstart))
    else (sp.1, rmstart)

/-- Apply an update to every span of every category
(the loops of `_extend_span_update` / `_shrink_span_update`). -/
def mapAllSpans (f : Span → Span) (t : SpanTable) : SpanTable :=
  t.map (fun p => (p.1, p.2.map f))

/-- The `string` setter of `WikiText`: write `new` into the buffer at the
node's span, then rebase every span.  `none` when the node's span is missing
(Python raises there). -/
def replaceNode (d : Doc) (k : String) (i : Nat) (new : List Char) : Option Doc :=
  match nodeSpan d k i with
  | none => none
  | some (s, e) =>
    let oldlength := (pySlice d.buffer s e).length
    let buf := d.buffer.take s ++ new ++ d.buffer.drop e
    let spans :=
      if new.length > oldlength then
        mapAllSpans (extendSpan s (new.length - oldlength)) d.spans
      else if new.length < oldlength then
        mapAllSpans (shrinkSpan s (s + (oldlength - new.length))) d.spans
      else d.spans
    some ⟨buf, spans⟩

/-- An edit request: node handle plus the new text. -/
structure Edit where
  key : String
  idx : Nat
  new : List Char

/-- A sequence of `replace` calls. -/
def applyEdits (es : List Edit) (d : Doc) : Option Doc :=
  match es with
  | [] => some d
  | e :: rest => (replaceNode d e.key e.idx e.new).bind (applyEdits rest)

/-- The span-table invariant: every span satisfies
`start ≤ end ≤ len(Buffer)`. -/
def Inv (d : Doc) : Prop :=
  ∀ p ∈ d.spans, ∀ sp ∈ p.2, sp.1 ≤ sp.2 ∧ sp.2 ≤ d.buffer.length

instance (d : Doc) : Decidable (Inv d) := by
  unfold Inv; infer_instance

/-- Modelled from the spec: §4.2 growth rule `extend(p, Δ)` — if
`span.start > p` shift both coordinates by `+Δ`; else if
`span.start ≤ p < span.end` extend `span.end` by `+Δ`; else leave
unchanged. -/
def specExtend (p Δ : Nat) (sp : Span) : Span :=
  if sp.1 > p then (sp.1 + Δ, sp.2 + Δ)
  else if sp.1 ≤ p ∧ p < sp.2 then (sp.1, sp.2 + Δ)
  else sp

/-- Modelled from the spec: §4.2 shrink rule `shrink(removeStart, removeEnd)` —
unchanged before the region, shifted left after it, start clipped to
`removeStart` when the removal begins inside, end reduced or clipped per the
four cases. -/
def specShrink (removeStart removeEnd : Nat) (sp : Span) : Span :=
  if sp.2 ≤ removeStart then sp
  else if removeEnd ≤ sp.1 then
    (sp.1 - (removeEnd - removeStart), sp.2 - (removeEnd - removeStart))
  else if removeStart < sp.1 then
    (if removeEnd ≤ sp.2 then (removeStart, sp.2 - (removeEnd - removeStart))
     else (removeStart, removeStart))
  else
    (if removeEnd ≤ sp.2 then (sp.1, sp.2 - (removeEnd - removeStart))
     else (sp.1, removeStart))

/-- Python `\s` for ASCII text. -/
def isPySpace (c : Char) : Bool :=
  c = ' ' ∨ c = '\t' ∨ c = '\n' ∨ c = '\r' ∨ c = '\x0b' ∨ c = '\x0c'

/-- `{` or `}`. -/
def isBrace (c : Char) : Bool := c = '{' ∨ c = '}'

/-- Number of brace characters in a string (the tokenizer's termination
measure). -/
def braceCount (s : List Char) : Nat := (s.filter isBrace).length

/-- The `VALID_TITLE_CHARS_PATTERN` character class
`[^\x00-\x1f\|\{\}\[\]<>\n]`. -/
def isTitleChar (c : Char) : Bool :=
  ¬(c.toNat ≤ 0x1f) ∧ c ≠ '|' ∧ c ≠ '{' ∧ c ≠ '}' ∧ c ≠ '[' ∧
    c ≠ ']' ∧ c ≠ '<' ∧ c ≠ '>'

/-- Does `pat` occur at position `i` of `s`? -/
def isPrefixAt (s : List Char) (i : Nat) (pat : List Char) : Bool :=
  pat.isPrefixOf (s.drop i)

/-- Length of the maximal run of characters satisfying `p` starting at
position `i`. -/
def runLength (p : Char → Bool) (s : List Char) (i : Nat) : Nat :=
  ((s.drop i).takeWhile p).length

/-- First position `j ≥ i` where `pat` occurs (fuelled scan). -/
def findPatFrom (s pat : List Char) : Nat → Nat → Option Nat
  | 0, _ => none
  | fuel + 1, i =>
    if isPrefixAt s i pat then some i
    else if i < s.length then findPatFrom s pat fuel (i + 1)
    else none

/-- First position `j ≥ i` with `s[j] = c` (fuelled scan). -/
def findCharFrom (s : List Char) (c : Char) : Nat → Nat → Option Nat
  | 0, _ => none
  | fuel + 1, i =>
    match s[i]? with
    | none => none
    | some d => if d = c then some i else findCharFrom s c fuel (i + 1)

/-- Lazy scan of `[^{}]*?\}\}`: first position `j ≥ i` where `}}` starts,
crossing only non-brace characters. -/
def scanToClose2 (s : List Char) : Nat → Nat → Option Nat
  | 0, _ => none
  | fuel + 1, j =>
    if isPrefixAt s j ['}', '}'] then some j
    else match s[j]? with
      | none => none
      | some c => if isBrace c then none else scanToClose2 s fuel (j + 1)

/-- Lazy scan of `[^{}]*?\}\}\}`: first position `j ≥ i` where `}}}` starts,
crossing only non-brace characters. -/
def scanToClose3 (s : List Char) : Nat → Nat → Option Nat
  | 0, _ => none
  | fuel + 1, j =>
    if isPrefixAt s j ['}', '}', '}'] then some j
    else match s[j]? with
      | none => none
      | some c => if isBrace c then none else scanToClose3 s fuel (j + 1)

/-- `TEMPLATE_PARAMETER_REGEX = \{\{\{[^{}]*?\}\}\}` matched at position
`i`; returns the match length. -/
def paramMatchAt (s : List Char) (i : Nat) : Option Nat :=
  if isPrefixAt s i ['{', '{', '{'] then
    (scanToClose3 s (s.length + 1) (i + 3)).map (fun j => j + 3 - i)
  else none

/-- The backtracking of `[^\s]*:` in `PARSER_FUNCTION_REGEX`: try the
colons of the whitespace-free run after `#` from the last to the first;
for each, run the lazy `[^{}]*?\}\}` tail. -/
def pfTryColons (s : List Char) (i base : Nat) : Nat → Option Nat
  | 0 => none
  | m + 1 =>
    (if s[base + m]? = some ':' then
       (scanToClose2 s (s.length + 1) (base + m + 1)).map (fun j => j + 2 - i)
     else none) <|>
    pfTryColons s i base m

/-- `PARSER_FUNCTION_REGEX = \{\{\s*#[^\s]*:[^{}]*?\}\}` matched at `i`. -/
def pfMatchAt (s : List Char) (i : Nat) : Option Nat :=
  if isPrefixAt s i ['{', '{'] then
    if s[i + 2 + runLength isPySpace s (i + 2)]? = some '#' then
      pfTryColons s i (i + 3 + runLength isPySpace s (i + 2))
        (runLength (fun c => ¬ isPySpace c) s
          (i + 3 + runLength isPySpace s (i + 2)))
    else none
  else none

/-- The final alternation `(\|[^{}]*?\}\}|\}\})` of `TEMPLATE_PATTERN` with
the interior starting at `q`; `accept` is the continuation test of the
enclosing regex (the negative lookahead of `TEMPLATE_NOT_PARAM_REGEX`). -/
def tplBranches (s : List Char) (i q : Nat) (accept : Nat → Bool) : Option Nat :=
  (if s[q]? = some '|' then
     (scanToClose2 s (s.length + 1) (q + 1)).bind (fun j =>
       if accept (j + 2 - i) then some (j + 2 - i) else none)
   else none) <|>
  (if isPrefixAt s q ['}', '}'] then
     (if accept (q + 2 - i) then some (q + 2 - i) else none)
   else none)

/-- Greedy backtracking of the second `\s*` of `TEMPLATE_PATTERN`: try
`w2 = w, w-1, …, 0` whitespace characters from `pos`. -/
def tplW2 (s : List Char) (i : Nat) (accept : Nat → Bool) (pos : Nat) :
    Nat → Option Nat
  | 0 => tplBranches s i pos accept
  | w + 1 => tplBranches s i (pos + w + 1) accept <|> tplW2 s i accept pos w

/-- Greedy backtracking of the title-character run of `TEMPLATE_PATTERN`:
try `t = t0, t0-1, …, 0` title characters from `base`. -/
def tplT (s : List Char) (i : Nat) (accept : Nat → Bool) (base : Nat) :
    Nat → Option Nat
  | 0 => tplW2 s i accept base (runLength isPySpace s base)
  | t + 1 =>
    tplW2 s i accept (base + t + 1) (runLength isPySpace s (base + t + 1)) <|>
    tplT s i accept base t

/-- Greedy backtracking of the first `\s*` of `TEMPLATE_PATTERN`. -/
def tplW1 (s : List Char) (i : Nat) (accept : Nat → Bool) : Nat → Option Nat
  | 0 => tplT s i accept (i + 2) (runLength isTitleChar s (i + 2))
  | w + 1 =>
    tplT s i accept (i + 2 + w + 1) (runLength isTitleChar s (i + 2 + w + 1)) <|>
    tplW1 s i accept w

/-- `TEMPLATE_PATTERN = \{\{\s*[title]*\s*(\|[^{}]*?\}\}|\}\})` matched at
`i`: the first match, in the regex engine's backtracking order, whose length
satisfies `accept`. -/
def tplPatternFirst (s : List Char) (i : Nat) (accept : Nat → Bool) :
    Option Nat :=
  if isPrefixAt s i ['{', '{'] then
    tplW1 s i accept (runLength isPySpace s (i + 2))
  else none

/-- `TEMPLATE_NOT_PARAM_REGEX = TEMPLATE_PATTERN(?!\})|(?<!{)TEMPLATE_PATTERN`
matched at `i`. -/
def templateNotParamAt (s : List Char) (i : Nat) : Option Nat :=
  match tplPatternFirst s i (fun L => ¬(s[i + L]? = some '}')) with
  | some L => some L
  | none =>
    if i = 0 ∨ ¬(s[i - 1]? = some '{') then
      tplPatternFirst s i (fun _ => true)
    else none

/-- `COMMENT_REGEX = <!--.*?-->` matched at `i`. -/
def commentMatchAt (s : List Char) (i : Nat) : Option Nat :=
  if isPrefixAt s i ['<', '!', '-', '-'] then
    (findPatFrom s ['-', '-', '>'] (s.length + 1) (i + 4)).map
      (fun j => j + 3 - i)
  else none

/-- The closing tag `</nowiki\s*>` matched at `k`; returns the end
position. -/
def nowikiCloseAt (s : List Char) (k : Nat) : Option Nat :=
  if isPrefixAt s k ['<', '/', 'n', 'o', 'w', 'i', 'k', 'i'] then
    let w := runLength isPySpace s (k + 8)
    if s[k + 8 + w]? = some '>' then some (k + 8 + w + 1) else none
  else none

/-- Lazy scan for the closing tag of `NOWIKI_REGEX`. -/
def nowikiCloseFrom (s : List Char) : Nat → Nat → Option Nat
  | 0, _ => none
  | fuel + 1, k =>
    match nowikiCloseAt s k with
    | some e => some e
    | none =>
      if k < s.length then nowikiCloseFrom s fuel (k + 1) else none

/-- `NOWIKI_REGEX = <nowiki\s*.*?>.*?</nowiki\s*>` matched at `i`. -/
def nowikiMatchAt (s : List Char) (i : Nat) : Option Nat :=
  if isPrefixAt s i ['<', 'n', 'o', 'w', 'i', 'k', 'i'] then
    match findCharFrom s '>' (s.length + 1) (i + 7) with
    | none => none
    | some g =>
      (nowikiCloseFrom s (s.length + 1) (g + 1)).map (fun e => e - i)
  else none

/-- `WIKILINK_REGEX = \[\[[title]*(\]\]|\|[\S\s]*?\]\])` matched at `i`. -/
def wikilinkMatchAt (s : List Char) (i : Nat) : Option Nat :=
  if isPrefixAt s i ['[', '['] then
    let t := runLength isTitleChar s (i + 2)
    let q := i + 2 + t
    if isPrefixAt s q [']', ']'] then some (q + 2 - i)
    else if s[q]? = some '|' then
      (findPatFrom s [']', ']'] (s.length + 1) (q + 1)).map
        (fun j => j + 2 - i)
    else none
  else none

/-- `re.finditer`: scan left to right, non-overlapping matches. -/
def finditerGo (matchAt : List Char → Nat → Option Nat) (s : List Char) :
    Nat → Nat → List (Nat × Nat)
  | 0, _ => []
  | fuel + 1, i =>
    if i < s.length then
      match matchAt s i with
      | some L =>
        (i, i + L) :: finditerGo matchAt s fuel (i + L + (if L = 0 then 1 else 0))
      | none => finditerGo matchAt s fuel (i + 1)
    else []

/-- All matches of a pattern in `s`. -/
def finditer (matchAt : List Char → Nat → Option Nat) (s : List Char) :
    List (Nat × Nat) :=
  finditerGo matchAt s (s.length + 1) 0

/-- Python `str.replace(pat, new)`: replace all non-overlapping occurrences
left to right (fuelled; the wrapper passes enough fuel). -/
def replaceAllGo (pat new : List Char) : Nat → List Char → List Char
  | 0, s => s
  | _ + 1, [] => []
  | fuel + 1, c :: rest =>
    if pat ≠ [] ∧ pat.isPrefixOf (c :: rest) then
      new ++ replaceAllGo pat new fuel ((c :: rest).drop pat.length)
    else c :: replaceAllGo pat new fuel rest

/-- Python `s.replace(pat, new)`. -/
def replaceAll (s pat new : List Char) : List Char :=
  replaceAllGo pat new s.length s

/-- The matched text of a span. -/
def groupOf (s : List Char) (sp : Nat × Nat) : List Char :=
  (s.drop sp.1).take (sp.2 - sp.1)

/-- Mask every match: for each match, `string = string.replace(group,
maskf(group))`, with the groups read from the pass's original string. -/
def maskMatches (s : List Char) (ms : List (Nat × Nat))
    (maskf : List Char → List Char) : List Char :=
  ms.foldl (fun cur sp => replaceAll cur (groupOf s sp) (maskf (groupOf s sp))) s

/-- Python `'__' + group[2:-2] + '__'`. -/
def maskInner2 (g : List Char) : List Char :=
  ['_', '_'] ++ (g.drop 2).take (g.length - 4) ++ ['_', '_']

/-- Python `'___' + group[3:-3] + '___'`. -/
def maskInner3 (g : List Char) : List Char :=
  ['_', '_', '_'] ++ (g.drop 3).take (g.length - 6) ++ ['_', '_', '_']

/-- Replace a whole group by filler (`'_' * len(group)`). -/
def maskFull (g : List Char) : List Char :=
  List.replicate g.length '_'

/-- Mask only braces (the wikilink pre-step:
`group.replace('}', '_').replace('{', '_')`). -/
def maskBraces (g : List Char) : List Char :=
  g.map (fun c => if isBrace c then '_' else c)

/-- One `while loop:` inner fixpoint: repeat `finditer` + record + mask until
a pass finds no match.  Returns the final string, the accumulated spans and
whether any match was ever found. -/
def innerLoop (matchAt : List Char → Nat → Option Nat)
    (maskf : List Char → List Char) :
    Nat → List Char → List (Nat × Nat) →
    Option (List Char × List (Nat × Nat) × Bool)
  | 0, _, _ => none
  | fuel + 1, s, acc =>
    match finditer matchAt s with
    | [] => some (s, acc, false)
    | m :: ms =>
      match innerLoop matchAt maskf fuel
          (maskMatches s (m :: ms) maskf) (acc ++ (m :: ms)) with
      | some (s', acc', _) => some (s', acc', true)
      | none => none

/-- `innerLoop` with its sufficient fuel. -/
def innerLoopRun (matchAt : List Char → Nat → Option Nat)
    (maskf : List Char → List Char) (s : List Char) (acc : List (Nat × Nat)) :
    Option (List Char × List (Nat × Nat) × Bool) :=
  innerLoop matchAt maskf (braceCount s + 1) s acc

/-- `re.sub(r'(?<!{){(?=[^{])', '_', string)`, with the lookarounds read
from the original string. -/
def loneOpenGo : Option Char → List Char → List Char
  | _, [] => []
  | prev, c :: rest =>
    (if c == '{' && prev != some '{' &&
        (match rest.head? with | some d => d != '{' | none => false) then '_'
     else c) :: loneOpenGo (some c) rest

def loneOpen (s : List Char) : List Char := loneOpenGo none s

/-- `re.sub(r'(?<!})}(?=[^}])', '_', string)`. -/
def loneCloseGo : Option Char → List Char → List Char
  | _, [] => []
  | prev, c :: rest =>
    (if c == '}' && prev != some '}' &&
        (match rest.head? with | some d => d != '}' | none => false) then '_'
     else c) :: loneCloseGo (some c) rest

def loneClose (s : List Char) : List Char := loneCloseGo none s

/-- `head, sep, tail = string.rpartition('}'); head + sep +
tail.replace('{', '_')`. -/
def rpartitionMask (s : List Char) : List Char :=
  (s.reverse.dropWhile (fun c => c ≠ '}')).reverse ++
    (s.reverse.takeWhile (fun c => c ≠ '}')).reverse.map
      (fun c => if c = '{' then '_' else c)

/-- `head, sep, tail = string.partition('{'); head.replace('}', '_') + sep +
tail`. -/
def partitionMask (s : List Char) : List Char :=
  (s.takeWhile (fun c => c ≠ '{')).map (fun c => if c = '}' then '_' else c) ++
    s.dropWhile (fun c => c ≠ '{')

/-- One pass of the `while True:` fixpoint loop of `_get_spans`: the four
lone-brace neutralisations, then the parameter, parser-function and template
inner loops.  The `Bool` is Python's `match is not None` test. -/
def outerPass (s : List Char) (ps pfs ts : List (Nat × Nat)) :
    Option (List Char × (List (Nat × Nat) × List (Nat × Nat) × List (Nat × Nat)) × Bool) :=
  match innerLoopRun paramMatchAt maskInner3
      (partitionMask (rpartitionMask (loneClose (loneOpen s)))) ps with
  | none => none
  | some (s5, ps', f1) =>
    match innerLoopRun pfMatchAt maskInner2 s5 pfs with
    | none => none
    | some (s6, pfs', f2) =>
      match innerLoopRun templateNotParamAt maskInner2 s6 ts with
      | none => none
      | some (s7, ts', f3) => some (s7, (ps', pfs', ts'), f1 || f2 || f3)

/-- The `while True:` fixpoint loop of `_get_spans`. -/
def outerLoop :
    Nat → List Char → List (Nat × Nat) → List (Nat × Nat) → List (Nat × Nat) →
    Option (List (Nat × Nat) × List (Nat × Nat) × List (Nat × Nat))
  | 0, _, _, _, _ => none
  | fuel + 1, s, ps, pfs, ts =>
    match outerPass s ps pfs ts with
    | none => none
    | some (s', acc, productive) =>
      if productive then outerLoop fuel s' acc.1 acc.2.1 acc.2.2
      else some acc

/-- One masking pre-step of `_get_spans` (comments, nowiki, wikilinks):
a single `finditer` pass recording spans and masking every group. -/
def preMask (matchAt : List Char → Nat → Option Nat)
    (maskf : List Char → List Char) (s : List Char) :
    List (Nat × Nat) × List Char :=
  (finditer matchAt s, maskMatches s (finditer matchAt s) maskf)

/-- `WikiText._get_spans`: the whole tokenizer. -/
def getSpans (s : List Char) : Option (List (String × List (Nat × Nat))) :=
  let pc := preMask commentMatchAt maskFull s
  let pn := preMask nowikiMatchAt maskFull pc.2
  let pw := preMask wikilinkMatchAt maskBraces pn.2
  (outerLoop (braceCount pw.2 + 1) pw.2 [] [] []).map (fun r =>
    [("p", r.1), ("pf", r.2.1), ("t", r.2.2), ("wl", pw.1),
     ("c", pc.1), ("nw", pn.1)])

/-- Build a document by tokenizing raw text (the `WikiText` constructor). -/
def parse (s : List Char) : Option Doc :=
  (getSpans s).map (fun tbl => ⟨s, tbl⟩)

/-- Python `str.partition(c)`: `(before, sep, after)` with `sep = [c]` when
found and `[]` otherwise. -/
def partition3 (c : Char) (l : List Char) : List Char × List Char × List Char :=
  if (l.takeWhile (fun x => x ≠ c)).length = l.length then (l, [], [])
  else (l.takeWhile (fun x => x ≠ c), [c],
    l.drop ((l.takeWhile (fun x => x ≠ c)).length + 1))

/-- `_in_subspans_factory`: the subspans of types `t, p, pf, wl, c, nw`
strictly inside the self-span.  (All six keys are present in any parsed
document, so a missing key reads as the empty list.) -/
def subspansOf (d : Doc) (selfstart selfend : Nat) : List Span :=
  ((["t", "p", "pf", "wl", "c", "nw"].map
      (fun k => (lookupSpans d.spans k).getD [])).flatten).filter
    (fun sp => selfstart < sp.1 && sp.2 < selfend)

/-- The `in_spans` test returned by `_in_subspans_factory`. -/
def inSubspans (subs : List Span) (idx : Nat) : Bool :=
  subs.any (fun sp => sp.1 ≤ idx && idx < sp.2)

/-- First occurrence of `c` at a position `≥ i` of `strg` that is not inside
a nested subspan (the `find`/`while in_spans` loop of
`_not_in_subspans_splitspans`). -/
def findUnmaskedFrom (strg : List Char) (c : Char) (subs : List Span)
    (ss : Nat) : Nat → Nat → Option Nat
  | 0, _ => none
  | fuel + 1, i =>
    match strg[i]? with
    | none => none
    | some dch =>
      if dch = c ∧ ¬ inSubspans subs (ss + i) then some i
      else findUnmaskedFrom strg c subs ss fuel (i + 1)

/-- The split loop of `_not_in_subspans_splitspans`. -/
def splitSpansGo (strg : List Char) (c : Char) (subs : List Span)
    (ss se : Nat) : Nat → Nat → List Span
  | 0, _ => []
  | fuel + 1, findstart =>
    match findUnmaskedFrom strg c subs ss (strg.length + 1) findstart with
    | none => [(ss + findstart, se)]
    | some idx =>
      (ss + findstart, ss + idx) ::
        splitSpansGo strg c subs ss se fuel (idx + 1)

/-- `WikiText._not_in_subspans_splitspans(char)` for the node with span
`(ss, se)`. -/
def notInSubspansSplitspans (d : Doc) (ss se : Nat) (c : Char) : List Span :=
  splitSpansGo (pySlice d.buffer ss se) c (subspansOf d ss se) ss se
    ((pySlice d.buffer ss se).length + 1) 0

/-- `Template.name` (getter). -/
def templateName (d : Doc) (i : Nat) : Option (List Char) :=
  (nodeText d "t" i).map (fun s =>
    (partition3 '|' ((s.drop 2).take (s.length - 4))).1)

/-- The argument spans computed by `Template.arguments`: the `|`-splits
after the name, the final `}}` removed from the last, each span extended one
character left to include its leading `|`. -/
def templateArgSpans (d : Doc) (i : Nat) : Option (List Span) :=
  (nodeSpan d "t" i).map (fun sp =>
    let bar := (notInSubspansSplitspans d sp.1 sp.2 '|').drop 1
    match bar.getLast? with
    | none => []
    | some lst =>
      (bar.dropLast ++ [(lst.1, lst.2 - 2)]).map (fun a => (a.1 - 1, a.2)))

/-- Append spans to a category with the `if aspan not in aspans` dedup of
`Template.arguments`. -/
def appendDedup (aspans : List Span) (new : List Span) : List Span :=
  new.foldl (fun acc sp => if sp ∈ acc then acc else acc ++ [sp]) aspans

/-- The per-owner argument category key `'ta' + str(index)`. -/
def argKey (i : Nat) : String := "ta" ++ toString i

/-- Replace the value stored at a key. -/
def updateKey (t : SpanTable) (k : String) (v : List Span) : SpanTable :=
  t.map (fun p => if p.1 = k then (p.1, v) else p)

/-- The side effect of calling `Template.arguments`: create or extend the
`'ta{i}'` span category. -/
def withTemplateArgs (d : Doc) (i : Nat) : Doc :=
  match templateArgSpans d i with
  | none => d
  | some asp =>
    match lookupSpans d.spans (argKey i) with
    | some existing => ⟨d.buffer, updateKey d.spans (argKey i) (appendDedup existing asp)⟩
    | none => ⟨d.buffer, d.spans ++ [(argKey i, appendDedup [] asp)]⟩

/-- `Argument.value` (getter). -/
def argValue (d : Doc) (key : String) (i : Nat) : Option (List Char) :=
  (nodeText d key i).map (fun s =>
    let pr := partition3 '=' s
    if pr.2.1 ≠ [] then pr.2.2 else pr.1.drop 1)

/-- `Argument.equal_sign` (getter). -/
def argEqual (d : Doc) (key : String) (i : Nat) : Option (List Char) :=
  (nodeText d key i).map (fun s => (partition3 '=' s).2.1)

/-- `Argument.value` (setter): `none` models the `IndexError` Python raises
on `pipename[0]` when a positional argument's text is empty. -/
def argSetValue (d : Doc) (key : String) (i : Nat) (newvalue : List Char) :
    Option Doc :=
  (nodeText d key i).bind (fun s =>
    if (partition3 '=' s).2.1 ≠ [] then
      replaceNode d key i ((partition3 '=' s).1 ++ ['='] ++ newvalue)
    else if hn : (partition3 '=' s).1 = [] then none
    else replaceNode d key i ((partition3 '=' s).1.head hn :: newvalue))

/-- `Template.name` (setter). -/
def setTemplateName (d : Doc) (i : Nat) (newname : List Char) : Option Doc :=
  (nodeText d "t" i).bind (fun s =>
    let pr := partition3 '|' ((s.drop 2).take (s.length - 4))
    if pr.2.1 ≠ [] then
      replaceNode d "t" i
        (['{', '{'] ++ newname ++ ['|'] ++ pr.2.2 ++ ['}', '}'])
    else
      replaceNode d "t" i (['{', '{'] ++ newname ++ ['}', '}']))

/-- `Parameter.name` (getter). -/
def paramName (d : Doc) (i : Nat) : Option (List Char) :=
  (nodeText d "p" i).map (fun s =>
    (partition3 '|' ((s.drop 3).take (s.length - 6))).1)

/-- `Parameter.pipe` (getter). -/
def paramPipe (d : Doc) (i : Nat) : Option (List Char) :=
  (nodeText d "p" i).map (fun s =>
    (partition3 '|' ((s.drop 3).take (s.length - 6))).2.1)

/-- `Parameter.default` (getter). -/
def paramDefault (d : Doc) (i : Nat) : Option (List Char) :=
  (nodeText d "p" i).map (fun s =>
    (partition3 '|' ((s.drop 3).take (s.length - 6))).2.2)

/-- Start-of-line test of `SECTION_HEADER_REGEX`:
`(?:(?<=\n)|(?<=^))` without `re.MULTILINE`. -/
def isHeaderStart (s : List Char) (i : Nat) : Bool :=
  i == 0 || (match s[i - 1]? with | some c => c == '\n' | none => false)

/-- Python `$` without `re.MULTILINE`: end of string, or just before a
trailing newline. -/
def dollarAt (s : List Char) (i : Nat) : Bool :=
  i = s.length ∨ (i + 1 = s.length ∧ s[i]? = some '\n')

/-- The tail ` *(?:\n|$)` from position `q`; returns the end position. -/
def spacesNlEnd (s : List Char) (q : Nat) : Option Nat :=
  if s[q + runLength (fun c => c = ' ') s q]? = some '\n' then
    some (q + runLength (fun c => c = ' ') s q + 1)
  else if dollarAt s (q + runLength (fun c => c = ' ') s q) then
    some (q + runLength (fun c => c = ' ') s q)
  else none

/-- Lazy scan for the closing `=` of `SECTION_HEADER_REGEX`
(`=[^\n]+?= *(?:\n|$)`); `j` is the candidate closing position, all interior
characters before it already checked non-newline. -/
def headerClose (s : List Char) : Nat → Nat → Option Nat
  | 0, _ => none
  | fuel + 1, j =>
    match s[j]? with
    | none => none
    | some c =>
      if c = '=' then
        match spacesNlEnd s (j + 1) with
        | some e => some e
        | none => headerClose s fuel (j + 1)
      else if c = '\n' then none
      else headerClose s fuel (j + 1)

/-- `SECTION_HEADER_REGEX` matched at `i`; returns the end position. -/
def sectionHeaderAt (s : List Char) (i : Nat) : Option Nat :=
  if isHeaderStart s i && s[i]? == some '=' &&
      (match s[i + 1]? with | some c => c != '\n' | none => false) then
    headerClose s (s.length + 1) (i + 2)
  else none

/-- First position `j ≥ i` where a section header starts. -/
def firstHeaderFrom (s : List Char) : Nat → Nat → Option Nat
  | 0, _ => none
  | fuel + 1, j =>
    match sectionHeaderAt s j with
    | some _ => some j
    | none => if j < s.length then firstHeaderFrom s fuel (j + 1) else none

/-- `LEAD_SECTION_REGEX.match`: end of the lead section, `none` when the
document has no header line (Python raises there). -/
def leadSectionEnd (s : List Char) : Option Nat :=
  firstHeaderFrom s (s.length + 1) 0

/-- Lazy scan of `.*?(?=HEADER|$)` in `SECTION_REGEX`. -/
def sectionEndFrom (s : List Char) : Nat → Nat → Option Nat
  | 0, _ => none
  | fuel + 1, q =>
    if (sectionHeaderAt s q).isSome ∨ dollarAt s q then some q
    else if q < s.length then sectionEndFrom s fuel (q + 1) else none

/-- `SECTION_REGEX` matched at `i`; returns the match length. -/
def sectionMatchAt (s : List Char) (i : Nat) : Option Nat :=
  match sectionHeaderAt s i with
  | none => none
  | some h => (sectionEndFrom s (s.length + 1) h).map (fun q => q - i)

/-- Lazy scan for the closing `\1` run of `SECTION_LEVEL_TITLE`
(`^(={1,6})([^\n]+?)\1( *(?:\n|$))`) with group-1 length `g`; `p` is the
candidate closing position. -/
def levelScan (secstr : List Char) (g : Nat) : Nat → Nat → Option Nat
  | 0, _ => none
  | fuel + 1, p =>
    match secstr[p]? with
    | none => none
    | some c =>
      if c = '\n' then none
      else if isPrefixAt secstr p (List.replicate g '=') ∧
          (spacesNlEnd secstr (p + g)).isSome then some g
      else levelScan secstr g fuel (p + 1)

/-- Does `SECTION_LEVEL_TITLE` succeed with group-1 length exactly `g`? -/
def sectionLevelTry (secstr : List Char) (g : Nat) : Bool :=
  match secstr[g]? with
  | none => false
  | some c =>
    if c = '\n' then false
    else (levelScan secstr g (secstr.length + 1) (g + 1)).isSome

/-- Greedy backtracking over the group-1 length. -/
def sectionLevelGo (secstr : List Char) : Nat → Nat
  | 0 => 0
  | g + 1 => if sectionLevelTry secstr (g + 1) then g + 1
             else sectionLevelGo secstr g

/-- `Section.level`: 0 when `SECTION_LEVEL_TITLE` does not match. -/
def sectionLevel (secstr : List Char) : Nat :=
  sectionLevelGo secstr (min 6 (runLength (fun c => c = '=') secstr 0))

/-- Python `str.rstrip()`. -/
def pyRstrip (l : List Char) : List Char :=
  (l.reverse.dropWhile isPySpace).reverse

/-- `Section.title`. -/
def sectionTitle (secstr : List Char) : List Char :=
  let lv := sectionLevel secstr
  if lv = 0 then []
  else
    let fl := pyRstrip (secstr.takeWhile (fun c => c ≠ '\n'))
    (fl.drop lv).take (fl.length - 2 * lv)

/-- `Section.contents`. -/
def sectionContents (secstr : List Char) : List Char :=
  if sectionLevel secstr = 0 then secstr
  else (secstr.dropWhile (fun c => c ≠ '\n')).drop 1

/-- `Section.title` (setter): the single raising setter.  `none` when the
section span is missing; `Except.error` models the `RuntimeError` on lead
sections. -/
def setSectionTitle (d : Doc) (i : Nat) (newtitle : List Char) :
    Option (Except String Doc) :=
  (nodeText d "s" i).bind (fun s =>
    let lv := sectionLevel s
    if lv = 0 then some (Except.error "lead sections have no title")
    else
      (replaceNode d "s" i (List.replicate lv '=' ++ newtitle ++
        List.replicate lv '=' ++ ['\n'] ++ sectionContents s)).map Except.ok)

/-- `if mspan not in sspans: sspans.append(mspan)` followed by
`sspans.index(mspan)`. -/
def addSpan (sspans : List Span) (sp : Span) : List Span × Nat :=
  if sp ∈ sspans then (sspans, sspans.indexOf sp)
  else (sspans ++ [sp], sspans.length)

/-- The cascading-extension loop of `WikiText.sections`: scan the non-lead
sections in order; extend each section of strictly smaller level to the new
match's end; stop at the first that is not smaller. -/
def cascadeGo (buffer : List Char) (sspans : List Span) :
    List Nat → Nat → Nat → List Span
  | [], _, _ => sspans
  | idx :: rest, latestLevel, mEnd =>
    let sp := sspans.getD idx (0, 0)
    if sectionLevel (pySlice buffer sp.1 sp.2) < latestLevel then
      cascadeGo buffer (sspans.set idx (sp.1, mEnd)) rest latestLevel mEnd
    else sspans

/-- The main loop of `WikiText.sections` over the `SECTION_REGEX` matches. -/
def sectionsGo (buffer : List Char) :
    List Span → List Span → List Nat → List Span × List Nat
  | [], sspans, secIdxs => (sspans, secIdxs)
  | m :: rest, sspans, secIdxs =>
    let a := addSpan sspans m
    let latestLevel := sectionLevel (pySlice buffer m.1 m.2)
    let secIdxs1 := secIdxs ++ [a.2]
    sectionsGo buffer rest (cascadeGo buffer a.1 secIdxs1 latestLevel m.2)
      secIdxs1

/-- `WikiText.sections` on the whole document: the final `'s'` span list and
the indices of the non-lead sections in document order (the lead section is
index 0).  `none` when the document has no header line (Python raises). -/
def buildSections (buffer : List Char) : Option (List Span × List Nat) :=
  (leadSectionEnd buffer).map (fun le =>
    sectionsGo buffer (finditer sectionMatchAt buffer) [(0, le)] [])

/-- The input of spec Example 2: `"{{{x|default}}}"`. -/
def inputC4 : List Char :=
  ['{', '{', '{', 'x', '|', 'd', 'e', 'f', 'a', 'u', 'l', 't', '}', '}', '}']

/-- The span table the tokenizer produces for `inputC4`. -/
def tableC4 : SpanTable :=
  [("p", [(0, 15)]), ("pf", []), ("t", []), ("wl", []), ("c", []), ("nw", [])]

/-- The input of spec Example 1: `"{{a|{{b|c}}}}"`. -/
def inputC5 : List Char :=
  ['{', '{', 'a', '|', '{', '{', 'b', '|', 'c', '}', '}', '}', '}']

/-- The span table the tokenizer produces for `inputC5`. -/
def tableC5 : SpanTable :=
  [("p", []), ("pf", []), ("t", [(4, 11), (0, 13)]), ("wl", []), ("c", []),
   ("nw", [])]

/-- The parsed document for `inputC5`. -/
def docC5 : Doc := ⟨inputC5, tableC5⟩

/-- The input of spec Example 5: `"{{a|1}}"`. -/
def inputC7 : List Char := ['{', '{', 'a', '|', '1', '}', '}']

/-- The span table the tokenizer produces for `inputC7`. -/
def tableC7 : SpanTable :=
  [("p", []), ("pf", []), ("t", [(0, 7)]), ("wl", []), ("c", []), ("nw", [])]

/-- The parsed `"{{a|1}}"` document after its template's `arguments` have
been read once (so the `'ta0'` category exists). -/
def docC7 : Doc := withTemplateArgs ⟨inputC7, tableC7⟩ 0

/-- The input of spec Example 4: `"== Title ==\nBody"`. -/
def inputC8 : List Char :=
  ['=', '=', ' ', 'T', 'i', 't', 'l', 'e', ' ', '=', '=', '\n',
   'B', 'o', 'd', 'y']

/-- Modelled from the spec: §4.5 cascading extension — the previously built
sections scanned in order form a longest prefix of strictly smaller level;
exactly those have their end extended to the new section's match end. -/
def specCascade (buffer : List Char) (sspans : List Span) (idxs : List Nat)
    (latestLevel mEnd : Nat) : List Span :=
  (idxs.takeWhile (fun j =>
      sectionLevel (pySlice buffer (sspans.getD j (0, 0)).1
        (sspans.getD j (0, 0)).2) < latestLevel)).foldl
    (fun t j => t.set j ((t.getD j (0, 0)).1, mEnd)) sspans

/-- A regex pass is good when each match fits in the string, is non-empty,
and masking its group strictly reduces the brace count. -/
def GoodPass (matchAt : List Char → Nat → Option Nat)
    (maskf : List Char → List Char) : Prop :=
  ∀ s i L, matchAt s i = some L →
    i + L ≤ s.length ∧ 0 < L ∧
    braceCount (maskf (groupOf s (i, i + L))) < braceCount (groupOf s (i, i + L))

theorem lookupSpans_mem {t : SpanTable} {k : String} {l : List Span}
    (h : lookupSpans t k = some l) : (k, l) ∈ t := by
  unfold lookupSpans at h
  cases hf : t.find? (fun p => p.1 == k) with
  | none => rw [hf] at h; simp at h
  | some p =>
    rw [hf] at h
    simp only [Option.map_some', Option.some.injEq] at h
    have hmem := List.mem_of_find?_eq_some hf
    have hk := List.find?_some hf
    simp only [beq_iff_eq] at hk
    cases p with
    | mk k' l' => simp_all

theorem pySlice_length {l : List Char} {s e : Nat} (hse : s ≤ e)
    (he : e ≤ l.length) : (pySlice l s e).length = e - s := by
  simp [pySlice]; omega

theorem extendSpan_inv {a b L p Δ : Nat} (hab : a ≤ b) (hL : b ≤ L) :
    (extendSpan p Δ (a, b)).1 ≤ (extendSpan p Δ (a, b)).2 ∧
      (extendSpan p Δ (a, b)).2 ≤ L + Δ := by
  unfold extendSpan
  split_ifs <;> simp_all <;> omega

theorem shrinkSpan_inv {a b L rs re : Nat} (hab : a ≤ b) (hL : b ≤ L)
    (hrs : rs ≤ re) (hre : re ≤ L) :
    (shrinkSpan rs re (a, b)).1 ≤ (shrinkSpan rs re (a, b)).2 ∧
      (shrinkSpan rs re (a, b)).2 ≤ L - (re - rs) := by
  unfold shrinkSpan
  split_ifs <;> simp_all <;> omega

/-- The facts established by a successful `replaceNode` call, with the
node's old span `(s, e)` exposed. -/
theorem replaceNode_spec {d : Doc} {k : String} {i : Nat} {new : List Char}
    {d' : Doc} {s e : Nat} (hinv : Inv d) (hsp : nodeSpan d k i = some (s, e))
    (h : replaceNode d k i new = some d') :
    s ≤ e ∧ e ≤ d.buffer.length ∧
    d'.buffer = d.buffer.take s ++ new ++ d.buffer.drop e ∧
    d'.buffer.length + (e - s) = d.buffer.length + new.length ∧
    d'.spans = (if new.length > e - s then
        mapAllSpans (extendSpan s (new.length - (e - s))) d.spans
      else if new.length < e - s then
        mapAllSpans (shrinkSpan s (s + ((e - s) - new.length))) d.spans
      else d.spans) := by
  have hmem : ∃ l, lookupSpans d.spans k = some l ∧ l[i]? = some (s, e) := by
    unfold nodeSpan at hsp
    cases hl : lookupSpans d.spans k with
    | none => rw [hl] at hsp; simp at hsp
    | some l => rw [hl] at hsp; exact ⟨l, rfl, hsp⟩
  obtain ⟨l, hl, hi⟩ := hmem
  have hse : s ≤ e ∧ e ≤ d.buffer.length := by
    have := hinv (k, l) (lookupSpans_mem hl) (s, e) (List.getElem?_mem hi)
    exact this
  have hold : (pySlice d.buffer s e).length = e - s :=
    pySlice_length hse.1 hse.2
  unfold replaceNode at h
  rw [hsp] at h
  simp only [hold, Option.some.injEq] at h
  subst h
  refine ⟨hse.1, hse.2, rfl, ?_, rfl⟩
  have h1 : (d.buffer.take s).length = s := by
    rw [List.length_take]; omega
  have h2 : (d.buffer.drop e).length = d.buffer.length - e := by
    rw [List.length_drop]
  simp only [List.length_append, h1, h2]
  omega

/-- `replaceNode` preserves the span-table invariant. -/
theorem replaceNode_inv {d : Doc} {k : String} {i : Nat} {new : List Char}
    {d' : Doc} (hinv : Inv d) (h : replaceNode d k i new = some d') :
    Inv d' := by
  obtain ⟨⟨s, e⟩, hsp⟩ : ∃ sp, nodeSpan d k i = some sp := by
    have hc := h
    unfold replaceNode at hc
    cases hx : nodeSpan d k i with
    | none => rw [hx] at hc; simp at hc
    | some sp => exact ⟨sp, rfl⟩
  obtain ⟨hs1, hs2, hbuf, hlen, hspans⟩ := replaceNode_spec hinv hsp h
  intro p hp sp hsp'
  rw [hspans] at hp
  split_ifs at hp with hgt hlt
  · -- growth: extend
    obtain ⟨q, hq, rfl⟩ := List.mem_map.1 hp
    obtain ⟨sp0, hsp0, rfl⟩ := List.mem_map.1 hsp'
    obtain ⟨a0, b0⟩ := sp0
    have hb1 : a0 ≤ b0 := (hinv q hq (a0, b0) hsp0).1
    have hb2 : b0 ≤ d.buffer.length := (hinv q hq (a0, b0) hsp0).2
    have hco := @extendSpan_inv a0 b0 d.buffer.length s
      (new.length - (e - s)) hb1 hb2
    exact ⟨hco.1, by have := hco.2; omega⟩
  · -- shrink
    obtain ⟨q, hq, rfl⟩ := List.mem_map.1 hp
    obtain ⟨sp0, hsp0, rfl⟩ := List.mem_map.1 hsp'
    obtain ⟨a0, b0⟩ := sp0
    have hb1 : a0 ≤ b0 := (hinv q hq (a0, b0) hsp0).1
    have hb2 : b0 ≤ d.buffer.length := (hinv q hq (a0, b0) hsp0).2
    have hco := @shrinkSpan_inv a0 b0 d.buffer.length s
      (s + ((e - s) - new.length)) hb1 hb2 (by omega) (by omega)
    exact ⟨hco.1, by have := hco.2; omega⟩
  · -- same length
    have hb := hinv p hp sp hsp'
    exact ⟨hb.1, by omega⟩

/-- Any sequence of `replace` calls preserves the invariant. -/
theorem applyEdits_inv {es : List Edit} {d d' : Doc} (hinv : Inv d)
    (h : applyEdits es d = some d') : Inv d' := by
  induction es generalizing d with
  | nil => unfold applyEdits at h; simp at h; subst h; exact hinv
  | cons e rest ih =>
    unfold applyEdits at h
    cases hx : replaceNode d e.key e.idx e.new with
    | none => rw [hx] at h; simp at h
    | some dm =>
      rw [hx] at h
      exact ih (replaceNode_inv hinv hx) h

theorem lookupSpans_mapAllSpans (f : Span → Span) (t : SpanTable) (k : String) :
    lookupSpans (mapAllSpans f t) k = (lookupSpans t k).map (fun l => l.map f) := by
  unfold lookupSpans mapAllSpans
  rw [List.find?_map]
  have : ((fun p : String × List Span => p.1 == k) ∘
      fun p : String × List Span => (p.1, p.2.map f)) =
      (fun p : String × List Span => p.1 == k) := rfl
  rw [this]
  cases t.find? (fun p => p.1 == k) <;> rfl

theorem extendSpan_self_degenerate (p Δ : Nat) :
    extendSpan p Δ (p, p) = (p, p) := by
  unfold extendSpan
  simp

/-- A span wholly inside the removed region collapses to the degenerate
span `(rmstart, rmstart)`. -/
theorem shrinkSpan_degenerate {a b rs re : Nat} (hrs : rs ≤ re) (ha : rs ≤ a)
    (hb : b ≤ re) (hab : a ≤ b) : shrinkSpan rs re (a, b) = (rs, rs) := by
  unfold shrinkSpan
  split_ifs <;> simp_all <;> omega

/-- C1: after every `replace` call and every sequence of such calls the
span-table invariant `start ≤ end ≤ len(Buffer)` holds; each call changes
the buffer length by exactly the edit's delta; no span slot is ever removed
from any category; and spans wholly inside a shrunk region become degenerate
`(p, p)` spans rather than being deleted. -/
theorem claim_C1 (d : Doc) (hinv : Inv d) :
    (∀ es d', applyEdits es d = some d' → Inv d') ∧
    (∀ k i new d' s e, nodeSpan d k i = some (s, e) →
      replaceNode d k i new = some d' →
      (Inv d' ∧
       d'.buffer.length + (e - s) = d.buffer.length + new.length ∧
       (∀ k', (lookupSpans d'.spans k').map List.length
           = (lookupSpans d.spans k').map List.length) ∧
       (new.length < e - s →
         ∀ (k' : String) (l : List Span) (j a b : Nat),
           lookupSpans d.spans k' = some l → l[j]? = some (a, b) →
           s ≤ a → b ≤ s + ((e - s) - new.length) →
           ∃ l' : List Span, lookupSpans d'.spans k' = some l' ∧ l'[j]? = some (s, s)))) := by
  constructor
  · intro es d' h
    exact applyEdits_inv hinv h
  · intro k i new d' s e hsp h
    obtain ⟨hs1, hs2, hbuf, hlen, hspans⟩ := replaceNode_spec hinv hsp h
    refine ⟨replaceNode_inv hinv h, hlen, ?_, ?_⟩
    · intro k'
      rw [hspans]
      split_ifs <;>
        simp [lookupSpans_mapAllSpans] <;>
        cases lookupSpans d.spans k' <;> simp
    · intro hshrink k' l j a b hl hj ha hb
      have hsh : d'.spans =
          mapAllSpans (shrinkSpan s (s + ((e - s) - new.length))) d.spans := by
        rw [hspans]
        rw [if_neg (by omega), if_pos hshrink]
      refine ⟨l.map (shrinkSpan s (s + ((e - s) - new.length))), ?_, ?_⟩
      · rw [hsh, lookupSpans_mapAllSpans, hl]; rfl
      · rw [List.getElem?_map, hj]
        have hab : a ≤ b := by
          have := hinv (k', l) (lookupSpans_mem hl) (a, b) (List.getElem?_mem hj)
          exact this.1
        simp only [Option.map_some', Option.some.injEq]
        exact shrinkSpan_degenerate (by omega) ha hb hab

/-- Witness for C1: a concrete document satisfying the invariant. -/
theorem claim_C1_witness :
    Inv ⟨['{', '{', 'a', '}', '}'], [("t", [(0, 5)])]⟩ ∧
      (∀ es d', applyEdits es ⟨['{', '{', 'a', '}', '}'], [("t", [(0, 5)])]⟩
        = some d' → Inv d') :=
  ⟨by decide, (claim_C1 ⟨['{', '{', 'a', '}', '}'], [("t", [(0, 5)])]⟩
    (by decide)).1⟩

/-- C2: `replace` rebases every span in every category by exactly the case
rules of §4.2, with anchor `p` the edited node's span start and `Δ` the
length delta: the code's per-span updates coincide with the spec's rules, and
the `string` setter applies them to the whole table anchored at `p`, with
shrink region `[p, p + |Δ|)`. -/
theorem claim_C2 :
    (∀ p Δ sp, extendSpan p Δ sp = specExtend p Δ sp) ∧
    (∀ rs re sp, shrinkSpan rs re sp = specShrink rs re sp) ∧
    (∀ d k i new d' s e, Inv d → nodeSpan d k i = some (s, e) →
      replaceNode d k i new = some d' →
      (new.length > e - s →
        d'.spans = mapAllSpans (specExtend s (new.length - (e - s))) d.spans) ∧
      (new.length < e - s →
        d'.spans = mapAllSpans (specShrink s (s + ((e - s) - new.length)))
          d.spans) ∧
      (new.length = e - s → d'.spans = d.spans)) := by
  have hext : ∀ p Δ sp, extendSpan p Δ sp = specExtend p Δ sp := by
    intro p Δ sp
    unfold extendSpan specExtend
    split_ifs <;> simp_all <;> omega
  have hshr : ∀ rs re sp, shrinkSpan rs re sp = specShrink rs re sp := by
    intro rs re sp
    unfold shrinkSpan specShrink
    rfl
  refine ⟨hext, hshr, ?_⟩
  intro d k i new d' s e hinv hsp h
  obtain ⟨hs1, hs2, hbuf, hlen, hspans⟩ := replaceNode_spec hinv hsp h
  have hfe : ∀ p Δ, mapAllSpans (extendSpan p Δ) d.spans
      = mapAllSpans (specExtend p Δ) d.spans := by
    intro p Δ
    unfold mapAllSpans
    exact List.map_congr_left (fun q _ => by
      rw [List.map_congr_left (fun sp _ => hext p Δ sp)])
  have hfs : ∀ rs re, mapAllSpans (shrinkSpan rs re) d.spans
      = mapAllSpans (specShrink rs re) d.spans := by
    intro rs re
    unfold mapAllSpans
    exact List.map_congr_left (fun q _ => by
      rw [List.map_congr_left (fun sp _ => hshr rs re sp)])
  refine ⟨?_, ?_, ?_⟩
  · intro hg
    rw [hspans, if_pos hg, hfe]
  · intro hl
    rw [hspans, if_neg (by omega), if_pos hl, hfs]
  · intro heq
    rw [hspans, if_neg (by omega), if_neg (by omega)]

/-- Witness for C2: concrete instantiations of all three parts. -/
theorem claim_C2_witness :
    extendSpan 0 4 (3, 5) = specExtend 0 4 (3, 5) ∧
    shrinkSpan 1 3 (0, 5) = specShrink 1 3 (0, 5) ∧
    (∀ d', replaceNode ⟨['a', 'b', 'c'], [("t", [(1, 2)])]⟩ "t" 0 ['x', 'y']
        = some d' →
      d'.spans = mapAllSpans (specExtend 1 1)
        ([("t", [(1, 2)])] : SpanTable)) := by
  refine ⟨claim_C2.1 0 4 (3, 5), claim_C2.2.1 1 3 (0, 5), ?_⟩
  intro d' h
  exact (claim_C2.2.2 ⟨['a', 'b', 'c'], [("t", [(1, 2)])]⟩ "t" 0 ['x', 'y'] d'
    1 2 (by decide) (by decide) h).1 (by decide)

/-- C10: replacing a degenerate node `(p, p)` with non-empty text inserts the
text into the buffer at `p` and shifts spans starting after `p`, but the
node's own span stays `(p, p)` and its text reads back empty. -/
theorem claim_C10 {d : Doc} {k : String} {i p : Nat} {new : List Char}
    (hsp : nodeSpan d k i = some (p, p)) (hne : new ≠ []) :
    ∃ d', replaceNode d k i new = some d' ∧
      d'.buffer = d.buffer.take p ++ new ++ d.buffer.drop p ∧
      nodeSpan d' k i = some (p, p) ∧
      nodeText d' k i = some [] ∧
      (∀ (k' : String) (l : List Span) (j a b : Nat),
        lookupSpans d.spans k' = some l → l[j]? = some (a, b) →
        p < a → ∃ l' : List Span, lookupSpans d'.spans k' = some l' ∧
          l'[j]? = some (a + new.length, b + new.length)) := by
  have hslice : pySlice d.buffer p p = [] := by
    unfold pySlice
    rw [List.drop_take]
    simp
  have hpos : 0 < new.length := List.length_pos.2 hne
  have hrepl : replaceNode d k i new =
      some ⟨d.buffer.take p ++ new ++ d.buffer.drop p,
        mapAllSpans (extendSpan p new.length) d.spans⟩ := by
    unfold replaceNode
    rw [hsp]
    simp only [hslice, List.length_nil]
    rw [if_pos (by omega)]
    simp
  refine ⟨_, hrepl, rfl, ?_, ?_, ?_⟩
  · -- the node's own span is unchanged
    obtain ⟨l, hl, hj⟩ : ∃ l, lookupSpans d.spans k = some l ∧
        l[i]? = some (p, p) := by
      unfold nodeSpan at hsp
      cases hl : lookupSpans d.spans k with
      | none => rw [hl] at hsp; simp at hsp
      | some l => rw [hl] at hsp; exact ⟨l, rfl, hsp⟩
    unfold nodeSpan
    simp only [lookupSpans_mapAllSpans, hl, Option.map_some', Option.some_bind,
      Option.bind_some, List.getElem?_map, hj, Option.some.injEq]
    exact extendSpan_self_degenerate p new.length
  · -- its text reads back empty
    obtain ⟨l, hl, hj⟩ : ∃ l, lookupSpans d.spans k = some l ∧
        l[i]? = some (p, p) := by
      unfold nodeSpan at hsp
      cases hl : lookupSpans d.spans k with
      | none => rw [hl] at hsp; simp at hsp
      | some l => rw [hl] at hsp; exact ⟨l, rfl, hsp⟩
    unfold nodeText nodeSpan
    simp only [lookupSpans_mapAllSpans, hl, Option.map_some', Option.some_bind,
      Option.bind_some, List.getElem?_map, hj, Option.some.injEq,
      extendSpan_self_degenerate]
    unfold pySlice
    rw [List.drop_take]
    simp
  · intro k' l j a b hl hj ha
    refine ⟨l.map (extendSpan p new.length), ?_, ?_⟩
    · rw [lookupSpans_mapAllSpans, hl]; rfl
    · rw [List.getElem?_map, hj]
      simp only [Option.map_some', Option.some.injEq]
      unfold extendSpan
      rw [if_pos (by omega)]

theorem replaceNode_isSome {d : Doc} {k : String} {i : Nat} {sp : Span}
    (new : List Char) (h : nodeSpan d k i = some sp) :
    ∃ d', replaceNode d k i new = some d' := by
  obtain ⟨s, e⟩ := sp
  unfold replaceNode
  rw [h]
  exact ⟨_, rfl⟩

theorem nodeSpan_of_nodeText {d : Doc} {k : String} {i : Nat} {s : List Char}
    (h : nodeText d k i = some s) : ∃ sp, nodeSpan d k i = some sp := by
  unfold nodeText at h
  cases hx : nodeSpan d k i with
  | none => rw [hx] at h; simp at h
  | some sp => exact ⟨sp, rfl⟩

/-- C4: `"{{{x|default}}}"` tokenizes to exactly one parameter span covering
the whole text and no parser-function or template span (the
parameter > parser-function > template tie-break), and the `Parameter`'s
name, pipe and default are `x`, `|` and `default`. -/
theorem claim_C4 :
    getSpans inputC4 = some tableC4 ∧
    paramName ⟨inputC4, tableC4⟩ 0 = some ['x'] ∧
    paramPipe ⟨inputC4, tableC4⟩ 0 = some ['|'] ∧
    paramDefault ⟨inputC4, tableC4⟩ 0
      = some ['d', 'e', 'f', 'a', 'u', 'l', 't'] := by
  refine ⟨by decide, by decide, by decide, by decide⟩

/-- C5: `"{{a|{{b|c}}}}"` tokenizes to exactly two template spans; the outer
template (table index 1) has name `a` and a single positional argument whose
value is the opaque nested `{{b|c}}`; the inner template (index 0) has name
`b` and a single positional argument `c`. -/
theorem claim_C5 :
    getSpans inputC5 = some tableC5 ∧
    templateName docC5 1 = some ['a'] ∧
    templateArgSpans docC5 1 = some [(3, 11)] ∧
    argValue (withTemplateArgs docC5 1) (argKey 1) 0
      = some ['{', '{', 'b', '|', 'c', '}', '}'] ∧
    argEqual (withTemplateArgs docC5 1) (argKey 1) 0 = some [] ∧
    templateName docC5 0 = some ['b'] ∧
    templateArgSpans docC5 0 = some [(7, 9)] ∧
    argValue (withTemplateArgs docC5 0) (argKey 0) 0 = some ['c'] ∧
    argEqual (withTemplateArgs docC5 0) (argKey 0) 0 = some [] := by
  refine ⟨by decide, by decide, by decide, by decide, by decide, by decide,
    by decide, by decide, by decide⟩

/-- Counterexample to C7: renaming the template of `"{{a|1}}"` from `a` to
`alpha` shifts the argument span by 4 (the length delta of the name), not
by 3 as claimed: the span `(3, 5)` becomes `(7, 9)`, not `(6, 8)`. -/
theorem claim_C7_counterexample :
    lookupSpans docC7.spans "ta0" = some [(3, 5)] ∧
    (∀ d', setTemplateName docC7 0 ['a', 'l', 'p', 'h', 'a'] = some d' →
      lookupSpans d'.spans "ta0" = some [(7, 9)] ∧ ¬((7, 9) = (3 + 3, 5 + 3))) := by
  refine ⟨by decide, ?_⟩
  intro d' h
  have : setTemplateName docC7 0 ['a', 'l', 'p', 'h', 'a'] =
      some ⟨['{', '{', 'a', 'l', 'p', 'h', 'a', '|', '1', '}', '}'],
        [("p", []), ("pf", []), ("t", [(0, 11)]), ("wl", []), ("c", []),
         ("nw", []), ("ta0", [(7, 9)])]⟩ := by decide
  rw [this] at h
  cases h
  exact ⟨by decide, by decide⟩

/-- C7 amended: on `"{{a|1}}"`, setting the template's name to `alpha`
yields buffer `"{{alpha|1}}"`; the sole argument's value is still `1` and
its span has shifted right by 4 (from `(3, 5)` to `(7, 9)`), with no other
category's spans affected. -/
theorem claim_C7_amended :
    getSpans inputC7 = some tableC7 ∧
    lookupSpans docC7.spans "ta0" = some [(3, 5)] ∧
    setTemplateName docC7 0 ['a', 'l', 'p', 'h', 'a'] =
      some ⟨['{', '{', 'a', 'l', 'p', 'h', 'a', '|', '1', '}', '}'],
        [("p", []), ("pf", []), ("t", [(0, 11)]), ("wl", []), ("c", []),
         ("nw", []), ("ta0", [(7, 9)])]⟩ ∧
    argValue ⟨['{', '{', 'a', 'l', 'p', 'h', 'a', '|', '1', '}', '}'],
        [("p", []), ("pf", []), ("t", [(0, 11)]), ("wl", []), ("c", []),
         ("nw", []), ("ta0", [(7, 9)])]⟩ "ta0" 0 = some ['1'] ∧
    (∀ k, k ∈ (["p", "pf", "wl", "c", "nw"] : List String) →
      lookupSpans
        ([("p", []), ("pf", []), ("t", [(0, 11)]), ("wl", []), ("c", []),
          ("nw", []), ("ta0", [(7, 9)])] : SpanTable) k
        = lookupSpans docC7.spans k) := by
  refine ⟨by decide, by decide, by decide, by decide, by decide⟩

/-- Counterexample to C8: on `"== Title ==\nBody"` the second section's
title is `" Title "` (the flanking spaces are kept by
`Section.title`), not `"Title"`. -/
theorem claim_C8_counterexample :
    buildSections inputC8 = some ([(0, 0), (0, 16)], [1]) ∧
    sectionTitle (pySlice inputC8 0 16) = [' ', 'T', 'i', 't', 'l', 'e', ' '] ∧
    ¬(sectionTitle (pySlice inputC8 0 16) = ['T', 'i', 't', 'l', 'e']) := by
  refine ⟨by decide, by decide, by decide⟩

/-- C8 amended: `sections()[0]` of `"== Title ==\nBody"` is the lead section
with contents `""`; `sections()[1]` has level 2, title `" Title "` (flanking
spaces preserved) and contents `"Body"`. -/
theorem claim_C8_amended :
    buildSections inputC8 = some ([(0, 0), (0, 16)], [1]) ∧
    sectionLevel (pySlice inputC8 0 0) = 0 ∧
    sectionContents (pySlice inputC8 0 0) = [] ∧
    sectionLevel (pySlice inputC8 0 16) = 2 ∧
    sectionTitle (pySlice inputC8 0 16) = [' ', 'T', 'i', 't', 'l', 'e', ' '] ∧
    sectionContents (pySlice inputC8 0 16) = ['B', 'o', 'd', 'y'] := by
  refine ⟨by decide, by decide, by decide, by decide, by decide, by decide⟩

/-- Counterexample to C9: the `Argument.value` setter is another failing
setter — on an argument whose text is empty (a degenerate span, exactly what
shrinks produce) Python raises `IndexError` on `pipename[0]`; the model
returns `none`.  So "every other setter always succeeds" is false. -/
theorem claim_C9_counterexample :
    argSetValue ⟨[], [("a", [(0, 0)])]⟩ "a" 0 ['x'] = none := by decide

/-- C9 amended: setting a lead section's title is the single intended,
typed failure, and every other setter succeeds — except `Argument.value`,
which fails exactly on an argument whose current text is empty (an
unintended `IndexError`).  Setting a template's name to the empty string is
accepted. -/
theorem claim_C9_amended :
    (∀ d i new s, nodeText d "s" i = some s → sectionLevel s = 0 →
      setSectionTitle d i new
        = some (Except.error "lead sections have no title")) ∧
    (∀ d i new s, nodeText d "s" i = some s → sectionLevel s ≠ 0 →
      ∃ d', setSectionTitle d i new = some (Except.ok d')) ∧
    (∀ d i new s, nodeText d "t" i = some s →
      ∃ d', setTemplateName d i new = some d') ∧
    (∀ d key i new s, nodeText d key i = some s →
      (argSetValue d key i new = none ↔ s = [])) ∧
    setTemplateName ⟨inputC7, tableC7⟩ 0 [] =
      some ⟨['{', '{', '|', '1', '}', '}'],
        [("p", []), ("pf", []), ("t", [(0, 6)]), ("wl", []), ("c", []),
         ("nw", [])]⟩ := by
  refine ⟨?_, ?_, ?_, ?_, by decide⟩
  · intro d i new s hs h0
    unfold setSectionTitle
    rw [hs]
    simp only [Option.some_bind]
    rw [if_pos h0]
  · intro d i new s hs h0
    obtain ⟨sp, hsp⟩ := nodeSpan_of_nodeText hs
    obtain ⟨d', hd'⟩ := replaceNode_isSome
      (List.replicate (sectionLevel s) '=' ++ new ++
        List.replicate (sectionLevel s) '=' ++ ['\n'] ++ sectionContents s) hsp
    refine ⟨d', ?_⟩
    unfold setSectionTitle
    rw [hs]
    simp only [Option.some_bind]
    rw [if_neg h0, hd']
    rfl
  · intro d i new s hs
    obtain ⟨sp, hsp⟩ := nodeSpan_of_nodeText hs
    unfold setTemplateName
    rw [hs]
    simp only [Option.some_bind]
    split_ifs with hp
    · exact replaceNode_isSome _ hsp
    · exact replaceNode_isSome _ hsp
  · intro d key i new s hs
    obtain ⟨sp, hsp⟩ := nodeSpan_of_nodeText hs
    unfold argSetValue
    rw [hs]
    simp only [Option.some_bind]
    constructor
    · intro h
      by_contra hne
      split_ifs at h with hp hn
      · obtain ⟨d', hd'⟩ := replaceNode_isSome
          ((partition3 '=' s).1 ++ ['='] ++ new) hsp
        rw [hd'] at h
        cases h
      · exact hne (by
          have hfst : (partition3 '=' s).1 = s := by
            unfold partition3 at hp ⊢
            split_ifs at hp ⊢ with h1
            · rfl
            · simp at hp
          rw [← hfst]
          exact hn)
      · obtain ⟨d', hd'⟩ := replaceNode_isSome
          ((partition3 '=' s).1.head hn :: new) hsp
        rw [hd'] at h
        cases h
    · intro h
      subst h
      simp [partition3]

/-- Witness for C9 amended: concrete instantiations discharging each
hypothesis. -/
theorem claim_C9_witness :
    setSectionTitle ⟨['x'], [("s", [(0, 1)])]⟩ 0 ['T']
      = some (Except.error "lead sections have no title") ∧
    (∃ d', setSectionTitle ⟨['=', 'T', '=', '\n', 'b'], [("s", [(0, 5)])]⟩ 0
      ['U'] = some (Except.ok d')) ∧
    (∃ d', setTemplateName ⟨inputC7, tableC7⟩ 0 [] = some d') ∧
    (argSetValue ⟨[], [("a", [(0, 0)])]⟩ "a" 0 ['x'] = none ↔
      ([] : List Char) = []) := by
  refine ⟨?_, ?_, ?_, ?_⟩
  · exact claim_C9_amended.1 ⟨['x'], [("s", [(0, 1)])]⟩ 0 ['T'] ['x']
      (by decide) (by decide)
  · exact claim_C9_amended.2.1 ⟨['=', 'T', '=', '\n', 'b'], [("s", [(0, 5)])]⟩
      0 ['U'] ['=', 'T', '=', '\n', 'b'] (by decide) (by decide)
  · exact claim_C9_amended.2.2.1 ⟨inputC7, tableC7⟩ 0 [] inputC7 (by decide)
  · exact claim_C9_amended.2.2.2.1 ⟨[], [("a", [(0, 0)])]⟩ "a" 0 ['x'] []
      (by decide)

/-- Witness for C10: a concrete document with a degenerate span. -/
theorem claim_C10_witness :
    ∃ d', replaceNode ⟨['a', 'b'], [("t", [(1, 1)]), ("p", [(2, 2)])]⟩
        "t" 0 ['x'] = some d' ∧
      d'.buffer = ['a', 'x', 'b'] ∧
      nodeSpan d' "t" 0 = some (1, 1) ∧
      nodeText d' "t" 0 = some [] := by
  obtain ⟨d', h1, h2, h3, h4, _⟩ :=
    @claim_C10 ⟨['a', 'b'], [("t", [(1, 1)]), ("p", [(2, 2)])]⟩
      "t" 0 1 ['x'] (by decide) (by decide)
  exact ⟨d', h1, by rw [h2]; decide, h3, h4⟩

theorem takeWhileCongr {α : Type} {f g : α → Bool} :
    ∀ {l : List α}, (∀ x ∈ l, f x = g x) → l.takeWhile f = l.takeWhile g := by
  intro l
  induction l with
  | nil => intro _; rfl
  | cons x xs ih =>
    intro h
    simp only [List.takeWhile_cons]
    rw [h x (by simp)]
    cases g x
    · rfl
    · simp only [ih (fun y hy => h y (by simp [hy]))]

theorem getD_set_ne {l : List Span} {i j : Nat} {v d : Span} (h : i ≠ j) :
    (l.set i v).getD j d = l.getD j d := by
  rw [List.getD_eq_getElem?_getD, List.getD_eq_getElem?_getD,
    List.getElem?_set_ne h]

theorem cascadeGo_eq_spec (buffer : List Char) :
    ∀ (idxs : List Nat) (sspans : List Span) (latestLevel mEnd : Nat),
      idxs.Nodup →
      cascadeGo buffer sspans idxs latestLevel mEnd
        = specCascade buffer sspans idxs latestLevel mEnd := by
  intro idxs
  induction idxs with
  | nil => intro sspans L m _; rfl
  | cons idx rest ih =>
    intro sspans L m hnd
    have hnd' : rest.Nodup := hnd.of_cons
    have hni : idx ∉ rest := by
      have := List.nodup_cons.1 hnd
      exact this.1
    by_cases hlv : sectionLevel (pySlice buffer (sspans.getD idx (0, 0)).1
        (sspans.getD idx (0, 0)).2) < L
    · unfold cascadeGo
      rw [if_pos hlv]
      rw [ih (sspans.set idx ((sspans.getD idx (0, 0)).1, m)) L m hnd']
      unfold specCascade
      rw [List.takeWhile_cons_of_pos (by simpa using hlv), List.foldl_cons]
      congr 1
      apply takeWhileCongr
      intro j hj
      have hne : idx ≠ j := fun h => hni (h ▸ hj)
      rw [getD_set_ne hne]
    · unfold cascadeGo specCascade
      rw [if_neg hlv,
        List.takeWhile_cons_of_neg (by simpa using hlv), List.foldl_nil]

theorem cascadeGo_preserve (buffer : List Char) :
    ∀ (idxs : List Nat) (sspans : List Span) (latestLevel mEnd j : Nat),
      j ∉ idxs →
      (cascadeGo buffer sspans idxs latestLevel mEnd)[j]? = sspans[j]? := by
  intro idxs
  induction idxs with
  | nil => intro sspans L m j _; rfl
  | cons idx rest ih =>
    intro sspans L m j hj
    have hj1 : j ≠ idx := fun h => hj (by simp [h])
    have hj2 : j ∉ rest := fun h => hj (by simp [h])
    unfold cascadeGo
    by_cases hlv : sectionLevel (pySlice buffer (sspans.getD idx (0, 0)).1
        (sspans.getD idx (0, 0)).2) < L
    · rw [if_pos hlv, ih _ L m j hj2, List.getElem?_set_ne (Ne.symm hj1)]
    · rw [if_neg hlv]

theorem spacesNlEnd_ge {s : List Char} {q e : Nat}
    (h : spacesNlEnd s q = some e) : q ≤ e := by
  unfold spacesNlEnd at h
  split_ifs at h <;> simp_all <;> omega

theorem headerClose_lt {s : List Char} :
    ∀ {fuel j e : Nat}, headerClose s fuel j = some e → j < e := by
  intro fuel
  induction fuel with
  | zero => intro j e h; unfold headerClose at h; cases h
  | succ fuel ih =>
    intro j e h
    unfold headerClose at h
    cases hj : s[j]? with
    | none => simp only [hj] at h; exact Option.noConfusion h
    | some c =>
      simp only [hj] at h
      split_ifs at h with h1 h2
      · cases hsp : spacesNlEnd s (j + 1) with
        | none =>
          simp only [hsp] at h
          have := ih h
          omega
        | some e2 =>
          simp only [hsp] at h
          cases h
          have := spacesNlEnd_ge hsp
          omega
      · have := ih h
        omega

theorem sectionHeaderAt_lt {s : List Char} {i e : Nat}
    (h : sectionHeaderAt s i = some e) : i + 2 < e := by
  unfold sectionHeaderAt at h
  split_ifs at h with h1
  · exact headerClose_lt h

theorem sectionEndFrom_ge {s : List Char} :
    ∀ {fuel q0 q : Nat}, sectionEndFrom s fuel q0 = some q → q0 ≤ q := by
  intro fuel
  induction fuel with
  | zero => intro q0 q h; unfold sectionEndFrom at h; cases h
  | succ fuel ih =>
    intro q0 q h
    unfold sectionEndFrom at h
    split_ifs at h with h1
    · cases h; omega
    · have := ih h
      omega

theorem sectionMatchAt_facts {s : List Char} {i L : Nat}
    (h : sectionMatchAt s i = some L) :
    0 < L ∧ (sectionHeaderAt s i).isSome := by
  unfold sectionMatchAt at h
  cases hh : sectionHeaderAt s i with
  | none => simp only [hh] at h; exact Option.noConfusion h
  | some e =>
    simp only [hh] at h
    cases hq : sectionEndFrom s (s.length + 1) e with
    | none =>
      simp only [hq, Option.map_none'] at h
      exact Option.noConfusion h
    | some q =>
      simp only [hq, Option.map_some', Option.some.injEq] at h
      subst h
      have h1 := sectionHeaderAt_lt hh
      have h2 := sectionEndFrom_ge hq
      exact ⟨by omega, rfl⟩

theorem finditerGo_mem {matchAt : List Char → Nat → Option Nat}
    {s : List Char} :
    ∀ {fuel i : Nat} {p : Nat × Nat}, p ∈ finditerGo matchAt s fuel i →
      ∃ L, matchAt s p.1 = some L ∧ p.2 = p.1 + L ∧ i ≤ p.1 ∧
        p.1 < s.length := by
  intro fuel
  induction fuel with
  | zero => intro i p h; unfold finditerGo at h; cases h
  | succ fuel ih =>
    intro i p h
    unfold finditerGo at h
    split_ifs at h with h1
    · cases hm : matchAt s i with
      | none =>
        rw [hm] at h
        obtain ⟨L, hL, he, hge, hlt⟩ := ih h
        exact ⟨L, hL, he, by omega, hlt⟩
      | some L =>
        rw [hm] at h
        cases h with
        | head => exact ⟨L, hm, rfl, le_refl _, h1⟩
        | tail _ h2 =>
          obtain ⟨L', hL, he, hge, hlt⟩ := ih h2
          refine ⟨L', hL, he, by omega, hlt⟩
    · cases h

theorem leadSectionEnd_of_headerAtZero {s : List Char}
    (h : (sectionHeaderAt s 0).isSome) : leadSectionEnd s = some 0 := by
  unfold leadSectionEnd firstHeaderFrom
  cases hh : sectionHeaderAt s 0 with
  | none => rw [hh] at h; cases h
  | some e => rfl

theorem indexOf_cons_ne_zero {x m : Span} {rest : List Span} (h : x ≠ m) :
    (x :: rest).indexOf m ≠ 0 := by
  simp only [List.indexOf_cons]
  have : (x == m) = false := beq_false_of_ne h
  rw [this]
  simp [List.indexOf]

/-- The invariant of the `sectionsGo` fold: the lead span at slot 0 is never
changed and no non-lead section index is 0. -/
theorem sectionsGo_inv (buffer : List Char) (le : Nat) :
    ∀ (ms : List Span) (sspans : List Span) (secIdxs : List Nat),
      (∀ m ∈ ms, (0, le) ≠ m) →
      sspans[0]? = some (0, le) →
      (∀ j ∈ secIdxs, j ≠ 0) →
      (sectionsGo buffer ms sspans secIdxs).1[0]? = some (0, le) ∧
      (∀ j ∈ (sectionsGo buffer ms sspans secIdxs).2, j ≠ 0) := by
  intro ms
  induction ms with
  | nil => intro sspans secIdxs _ h0 hj; exact ⟨h0, hj⟩
  | cons m rest ih =>
    intro sspans secIdxs hm h0 hj
    have hmne : (0, le) ≠ m := hm m (by simp)
    have hidx : (addSpan sspans m).2 ≠ 0 ∧
        (addSpan sspans m).1[0]? = some (0, le) := by
      unfold addSpan
      split_ifs with hin
      · cases sspans with
        | nil => simp at h0
        | cons x rest' =>
          simp only [List.getElem?_cons_zero, Option.some.injEq] at h0
          exact ⟨indexOf_cons_ne_zero (by rw [h0]; exact hmne),
            by simp [h0]⟩
      · have hlen : 0 < sspans.length := by
          cases sspans
          · simp at h0
          · simp
        constructor
        · omega
        · rw [List.getElem?_append_left hlen]
          exact h0
    have hj1 : ∀ j ∈ secIdxs ++ [(addSpan sspans m).2], j ≠ 0 := by
      intro j hjm
      rcases List.mem_append.1 hjm with hcase | hcase
      · exact hj j hcase
      · simp at hcase
        rw [hcase]
        exact hidx.1
    have h0c : (cascadeGo buffer (addSpan sspans m).1
        (secIdxs ++ [(addSpan sspans m).2])
        (sectionLevel (pySlice buffer m.1 m.2)) m.2)[0]? = some (0, le) := by
      rw [cascadeGo_preserve buffer _ _ _ _ 0 (fun hmem => hj1 0 hmem rfl)]
      exact hidx.2
    unfold sectionsGo
    exact ih _ _ (fun x hx => hm x (by simp [hx])) h0c hj1

/-- C6: the cascading extension of `sections()` extends exactly the longest
prefix of previously built sections whose level is strictly smaller than the
new section's, to the new match's end, stopping at the first that is not
smaller; sections not in the scanned list — in particular the lead — are
untouched, and `buildSections` never changes the lead span at slot 0. -/
theorem claim_C6 :
    (∀ (buffer : List Char) (idxs : List Nat) (sspans : List Span)
        (latestLevel mEnd : Nat), idxs.Nodup →
      cascadeGo buffer sspans idxs latestLevel mEnd
        = specCascade buffer sspans idxs latestLevel mEnd) ∧
    (∀ (buffer : List Char) (idxs : List Nat) (sspans : List Span)
        (latestLevel mEnd j : Nat), j ∉ idxs →
      (cascadeGo buffer sspans idxs latestLevel mEnd)[j]? = sspans[j]?) ∧
    (∀ (buffer : List Char) (tbl : List Span) (idxs : List Nat),
      buildSections buffer = some (tbl, idxs) →
      (∀ j ∈ idxs, j ≠ 0) ∧
      ∃ le, leadSectionEnd buffer = some le ∧ tbl[0]? = some (0, le)) := by
  refine ⟨cascadeGo_eq_spec, cascadeGo_preserve, ?_⟩
  intro buffer tbl idxs h
  unfold buildSections at h
  cases hle : leadSectionEnd buffer with
  | none => rw [hle] at h; cases h
  | some le =>
    rw [hle] at h
    simp only [Option.map_some', Option.some.injEq] at h
    have hm : ∀ m ∈ finditer sectionMatchAt buffer, ((0 : Nat), le) ≠ m := by
      intro m hmem hme
      obtain ⟨L, hL, he, _, _⟩ := finditerGo_mem hmem
      obtain ⟨hpos, hhead⟩ := sectionMatchAt_facts hL
      have h1 : m.1 = 0 := by rw [← hme]
      have h2 : m.2 = le := by rw [← hme]
      rw [h1] at hhead
      have := leadSectionEnd_of_headerAtZero hhead
      rw [hle] at this
      cases this
      omega
    have := sectionsGo_inv buffer le (finditer sectionMatchAt buffer)
      [(0, le)] [] hm (by rfl) (by intro j hj; cases hj)
    rw [h] at this
    exact ⟨this.2, le, rfl, this.1⟩

/-- Witness for C6: concrete instantiations of all three parts on the
Example-4 document. -/
theorem claim_C6_witness :
    cascadeGo inputC8 [(0, 0), (0, 16)] [1] 2 16
      = specCascade inputC8 [(0, 0), (0, 16)] [1] 2 16 ∧
    (cascadeGo inputC8 [(0, 0), (0, 16)] [1] 2 16)[0]?
      = ([(0, 0), (0, 16)] : List Span)[0]? ∧
    ((∀ j ∈ ([1] : List Nat), j ≠ 0) ∧
      ∃ le, leadSectionEnd inputC8 = some le ∧
        ([(0, 0), (0, 16)] : List Span)[0]? = some (0, le)) := by
  refine ⟨claim_C6.1 inputC8 [1] [(0, 0), (0, 16)] 2 16 (by decide),
    claim_C6.2.1 inputC8 [1] [(0, 0), (0, 16)] 2 16 0 (by decide),
    claim_C6.2.2 inputC8 [(0, 0), (0, 16)] [1] (by decide)⟩



theorem braceCount_append (a b : List Char) :
    braceCount (a ++ b) = braceCount a + braceCount b := by
  unfold braceCount
  rw [List.filter_append, List.length_append]

theorem braceCount_cons (c : Char) (l : List Char) :
    braceCount (c :: l) = (if isBrace c then 1 else 0) + braceCount l := by
  unfold braceCount
  rw [List.filter_cons]
  split_ifs <;> simp_all <;> omega

theorem braceCount_underscores (n : Nat) :
    braceCount (List.replicate n '_') = 0 := by
  induction n with
  | zero => rfl
  | succ n ih => rw [List.replicate_succ, braceCount_cons]; simp [isBrace, ih]

/-- `str.replace` never increases the brace count when the replacement has
no more braces than the pattern. -/
theorem replaceAllGo_bc_le {pat new : List Char}
    (hb : braceCount new ≤ braceCount pat) :
    ∀ (fuel : Nat) (s : List Char),
      braceCount (replaceAllGo pat new fuel s) ≤ braceCount s := by
  intro fuel
  induction fuel with
  | zero => intro s; exact le_refl _
  | succ fuel ih =>
    intro s
    cases s with
    | nil => exact le_refl _
    | cons c rest =>
      simp only [replaceAllGo]
      split_ifs with hp
      · obtain ⟨t, ht⟩ := List.isPrefixOf_iff_prefix.mp hp.2
        rw [braceCount_append]
        have hdrop : (c :: rest).drop pat.length = t := by
          rw [← ht, List.drop_left]
        rw [hdrop]
        have := ih t
        have hsplit : braceCount (c :: rest) = braceCount pat + braceCount t := by
          rw [← ht, braceCount_append]
        omega
      · rw [braceCount_cons, braceCount_cons]
        have := ih rest
        omega

/-- `str.replace` strictly decreases the brace count when the pattern occurs,
is non-empty, and the replacement has strictly fewer braces. -/
theorem replaceAllGo_bc_lt {pat new : List Char} (hne : pat ≠ [])
    (hb : braceCount new < braceCount pat) :
    ∀ (fuel : Nat) (s : List Char), s.length ≤ fuel → pat <:+: s →
      braceCount (replaceAllGo pat new fuel s) < braceCount s := by
  intro fuel
  induction fuel with
  | zero =>
    intro s hlen hinf
    interval_cases hs : s.length
    · rw [List.length_eq_zero] at hs
      subst hs
      obtain ⟨l, r, hlr⟩ := hinf
      cases hl : l <;> cases hp : pat <;> simp_all
  | succ fuel ih =>
    intro s hlen hinf
    cases s with
    | nil =>
      obtain ⟨l, r, hlr⟩ := hinf
      cases hl : l <;> cases hp : pat <;> simp_all
    | cons c rest =>
      simp only [replaceAllGo]
      split_ifs with hp
      · obtain ⟨t, ht⟩ := List.isPrefixOf_iff_prefix.mp hp.2
        rw [braceCount_append]
        have hdrop : (c :: rest).drop pat.length = t := by
          rw [← ht, List.drop_left]
        rw [hdrop]
        have hle := replaceAllGo_bc_le (le_of_lt hb) fuel t
        have hsplit : braceCount (c :: rest) = braceCount pat + braceCount t := by
          rw [← ht, braceCount_append]
        omega
      · rw [braceCount_cons, braceCount_cons]
        have hrest : pat <:+: rest := by
          obtain ⟨l, r, hlr⟩ := hinf
          cases l with
          | nil =>
            exfalso
            apply hp
            refine ⟨hne, ?_⟩
            rw [List.isPrefixOf_iff_prefix]
            simp only [List.nil_append] at hlr
            exact ⟨r, hlr⟩
          | cons x l2 =>
            simp only [List.cons_append] at hlr
            exact ⟨l2, r, (List.cons.injEq _ _ _ _ |>.mp hlr).2⟩
        have := ih rest (by simp at hlen; omega) hrest
        omega


theorem isPrefixAt_bound {s pat : List Char} {j : Nat} (hne : pat ≠ [])
    (h : isPrefixAt s j pat = true) : j + pat.length ≤ s.length := by
  unfold isPrefixAt at h
  have hpre := List.isPrefixOf_iff_prefix.mp h
  have h1 := hpre.length_le
  rw [List.length_drop] at h1
  have h2 : 1 ≤ pat.length := by
    cases pat
    · simp at hne
    · simp
  omega

theorem isPrefixAt_take {s pat : List Char} {j : Nat}
    (h : isPrefixAt s j pat = true) : (s.drop j).take pat.length = pat := by
  unfold isPrefixAt at h
  exact (List.prefix_iff_eq_take.mp (List.isPrefixOf_iff_prefix.mp h)).symm

theorem scanToClose2_spec {s : List Char} :
    ∀ {fuel j0 j : Nat}, scanToClose2 s fuel j0 = some j →
      j0 ≤ j ∧ isPrefixAt s j ['}', '}'] = true := by
  intro fuel
  induction fuel with
  | zero => intro j0 j h; unfold scanToClose2 at h; cases h
  | succ fuel ih =>
    intro j0 j h
    unfold scanToClose2 at h
    split_ifs at h with h1
    · cases h; exact ⟨le_refl _, h1⟩
    · cases hc : s[j0]? with
      | none => simp only [hc] at h; exact Option.noConfusion h
      | some c =>
        simp only [hc] at h
        split_ifs at h with h2
        obtain ⟨hle, hcl⟩ := ih h
        exact ⟨by omega, hcl⟩

theorem scanToClose3_spec {s : List Char} :
    ∀ {fuel j0 j : Nat}, scanToClose3 s fuel j0 = some j →
      j0 ≤ j ∧ isPrefixAt s j ['}', '}', '}'] = true := by
  intro fuel
  induction fuel with
  | zero => intro j0 j h; unfold scanToClose3 at h; cases h
  | succ fuel ih =>
    intro j0 j h
    unfold scanToClose3 at h
    split_ifs at h with h1
    · cases h; exact ⟨le_refl _, h1⟩
    · cases hc : s[j0]? with
      | none => simp only [hc] at h; exact Option.noConfusion h
      | some c =>
        simp only [hc] at h
        split_ifs at h with h2
        obtain ⟨hle, hcl⟩ := ih h
        exact ⟨by omega, hcl⟩

/-- A successful 2-brace-delimited match: the group fits in the string, is
non-empty, and masking its delimiters removes exactly four braces. -/
theorem group_bc2 {s : List Char} {i j L : Nat}
    (hij : i + 2 ≤ j) (hL : L = j + 2 - i)
    (hopen : isPrefixAt s i ['{', '{'] = true)
    (hclose : isPrefixAt s j ['}', '}'] = true) :
    i + L ≤ s.length ∧ 0 < L ∧
    braceCount (maskInner2 (groupOf s (i, i + L))) + 4
      = braceCount (groupOf s (i, i + L)) := by
  have hb := isPrefixAt_bound (by simp) hclose
  simp only [List.length_cons, List.length_nil] at hb
  have hL4 : 4 ≤ L := by omega
  have hiL : i + L = j + 2 := by omega
  refine ⟨by omega, by omega, ?_⟩
  have hgdef : groupOf s (i, i + L) = (s.drop i).take L := by
    unfold groupOf
    rw [Nat.add_sub_cancel_left]
  have hglen : ((s.drop i).take L).length = L := by
    rw [List.length_take, List.length_drop]
    omega
  have htake2 : ((s.drop i).take L).take 2 = ['{', '{'] := by
    rw [List.take_take, min_eq_left (by omega)]
    have := isPrefixAt_take hopen
    simpa using this
  have hdropL2 : ((s.drop i).take L).drop (L - 2) = ['}', '}'] := by
    rw [List.drop_take, List.drop_drop]
    have h1 : i + (L - 2) = j := by omega
    have h2 : L - (L - 2) = 2 := by omega
    rw [h1, h2]
    have := isPrefixAt_take hclose
    simpa using this
  have hmid : ((s.drop i).take L).drop 2
      = (((s.drop i).take L).drop 2).take (L - 4) ++ ['}', '}'] := by
    conv_lhs =>
      rw [← List.take_append_drop (L - 4) (((s.drop i).take L).drop 2)]
    congr 1
    rw [List.drop_drop]
    have h3 : 2 + (L - 4) = L - 2 := by omega
    rw [h3, hdropL2]
  rw [hgdef]
  unfold maskInner2
  rw [hglen, braceCount_append, braceCount_append]
  conv_rhs => rw [← List.take_append_drop 2 ((s.drop i).take L)]
  rw [braceCount_append, htake2]
  conv_rhs => rw [hmid]
  rw [braceCount_append]
  have hbu : braceCount ['_', '_'] = 0 := by decide
  have hb2 : braceCount ['{', '{'] = 2 := by decide
  have hb3 : braceCount ['}', '}'] = 2 := by decide
  omega

/-- A successful 3-brace-delimited (parameter) match: masking its delimiters
removes exactly six braces. -/
theorem group_bc3 {s : List Char} {i j L : Nat}
    (hij : i + 3 ≤ j) (hL : L = j + 3 - i)
    (hopen : isPrefixAt s i ['{', '{', '{'] = true)
    (hclose : isPrefixAt s j ['}', '}', '}'] = true) :
    i + L ≤ s.length ∧ 0 < L ∧
    braceCount (maskInner3 (groupOf s (i, i + L))) + 6
      = braceCount (groupOf s (i, i + L)) := by
  have hb := isPrefixAt_bound (by simp) hclose
  simp only [List.length_cons, List.length_nil] at hb
  have hL6 : 6 ≤ L := by omega
  have hiL : i + L = j + 3 := by omega
  refine ⟨by omega, by omega, ?_⟩
  have hgdef : groupOf s (i, i + L) = (s.drop i).take L := by
    unfold groupOf
    rw [Nat.add_sub_cancel_left]
  have hglen : ((s.drop i).take L).length = L := by
    rw [List.length_take, List.length_drop]
    omega
  have htake3 : ((s.drop i).take L).take 3 = ['{', '{', '{'] := by
    rw [List.take_take, min_eq_left (by omega)]
    have := isPrefixAt_take hopen
    simpa using this
  have hdropL3 : ((s.drop i).take L).drop (L - 3) = ['}', '}', '}'] := by
    rw [List.drop_take, List.drop_drop]
    have h1 : i + (L - 3) = j := by omega
    have h2 : L - (L - 3) = 3 := by omega
    rw [h1, h2]
    have := isPrefixAt_take hclose
    simpa using this
  have hmid : ((s.drop i).take L).drop 3
      = (((s.drop i).take L).drop 3).take (L - 6) ++ ['}', '}', '}'] := by
    conv_lhs =>
      rw [← List.take_append_drop (L - 6) (((s.drop i).take L).drop 3)]
    congr 1
    rw [List.drop_drop]
    have h3 : 3 + (L - 6) = L - 3 := by omega
    rw [h3, hdropL3]
  rw [hgdef]
  unfold maskInner3
  rw [hglen, braceCount_append, braceCount_append]
  conv_rhs => rw [← List.take_append_drop 3 ((s.drop i).take L)]
  rw [braceCount_append, htake3]
  conv_rhs => rw [hmid]
  rw [braceCount_append]
  have hbu : braceCount ['_', '_', '_'] = 0 := by decide
  have hb2 : braceCount ['{', '{', '{'] = 3 := by decide
  have hb3 : braceCount ['}', '}', '}'] = 3 := by decide
  omega

theorem paramMatchAt_good : GoodPass paramMatchAt maskInner3 := by
  intro s i L h
  unfold paramMatchAt at h
  split_ifs at h with h1
  cases hsc : scanToClose3 s (s.length + 1) (i + 3) with
  | none => simp only [hsc] at h; exact Option.noConfusion h
  | some j =>
    simp only [hsc, Option.map_some', Option.some.injEq] at h
    obtain ⟨hge, hcl⟩ := scanToClose3_spec hsc
    obtain ⟨hb1, hb2, hb3⟩ := @group_bc3 s i j L
      (by omega) (by omega) h1 hcl
    exact ⟨hb1, hb2, by omega⟩

theorem pfTryColons_spec {s : List Char} {i base L : Nat}
    (hbase : i + 2 ≤ base) :
    ∀ {n : Nat}, pfTryColons s i base n = some L →
      ∃ j, i + 2 ≤ j ∧ isPrefixAt s j ['}', '}'] = true ∧ L = j + 2 - i := by
  intro n
  induction n with
  | zero => intro h; unfold pfTryColons at h; cases h
  | succ m ih =>
    intro h
    unfold pfTryColons at h
    rcases ho : (if s[base + m]? = some ':' then
        (scanToClose2 s (s.length + 1) (base + m + 1)).map
          (fun j => j + 2 - i)
      else none) with _ | L2
    · rw [ho] at h
      simp only [Option.none_orElse] at h
      exact ih h
    · rw [ho] at h
      simp only [Option.some_orElse] at h
      cases h
      split_ifs at ho with hc
      · cases hsc : scanToClose2 s (s.length + 1) (base + m + 1) with
        | none => simp only [hsc] at ho; exact Option.noConfusion ho
        | some j =>
          simp only [hsc, Option.map_some', Option.some.injEq] at ho
          obtain ⟨hge, hcl⟩ := scanToClose2_spec hsc
          exact ⟨j, by omega, hcl, by omega⟩

theorem pfMatchAt_shape {s : List Char} {i L : Nat}
    (h : pfMatchAt s i = some L) :
    isPrefixAt s i ['{', '{'] = true ∧
    ∃ j, i + 2 ≤ j ∧ isPrefixAt s j ['}', '}'] = true ∧ L = j + 2 - i := by
  unfold pfMatchAt at h
  split_ifs at h with h1 h2
  exact ⟨h1, pfTryColons_spec (by omega) h⟩

theorem tplBranches_spec {s : List Char} {i q L : Nat}
    {accept : Nat → Bool} (hq : i + 2 ≤ q)
    (h : tplBranches s i q accept = some L) :
    ∃ j, i + 2 ≤ j ∧ isPrefixAt s j ['}', '}'] = true ∧ L = j + 2 - i := by
  unfold tplBranches at h
  rcases ho : (if s[q]? = some '|' then
      (scanToClose2 s (s.length + 1) (q + 1)).bind (fun j =>
        if accept (j + 2 - i) then some (j + 2 - i) else none)
    else none) with _ | L2
  · rw [ho] at h
    simp only [Option.none_orElse] at h
    split_ifs at h with hcl hacc
    cases h
    exact ⟨q, hq, hcl, rfl⟩
  · rw [ho] at h
    simp only [Option.some_orElse] at h
    cases h
    split_ifs at ho with hc
    · cases hsc : scanToClose2 s (s.length + 1) (q + 1) with
      | none => simp only [hsc] at ho; exact Option.noConfusion ho
      | some j =>
        simp only [hsc, Option.some_bind] at ho
        split_ifs at ho with hacc
        cases ho
        obtain ⟨hge, hcl⟩ := scanToClose2_spec hsc
        exact ⟨j, by omega, hcl, rfl⟩

theorem tplW2_spec {s : List Char} {i : Nat} {accept : Nat → Bool}
    {pos L : Nat} (hpos : i + 2 ≤ pos) :
    ∀ {w : Nat}, tplW2 s i accept pos w = some L →
      ∃ j, i + 2 ≤ j ∧ isPrefixAt s j ['}', '}'] = true ∧ L = j + 2 - i := by
  intro w
  induction w with
  | zero => intro h; exact tplBranches_spec hpos h
  | succ w ih =>
    intro h
    unfold tplW2 at h
    rcases ho : tplBranches s i (pos + w + 1) accept with _ | L2
    · rw [ho] at h
      simp only [Option.none_orElse] at h
      exact ih h
    · rw [ho] at h
      simp only [Option.some_orElse] at h
      cases h
      exact tplBranches_spec (by omega) ho

theorem tplT_spec {s : List Char} {i : Nat} {accept : Nat → Bool}
    {base L : Nat} (hbase : i + 2 ≤ base) :
    ∀ {t : Nat}, tplT s i accept base t = some L →
      ∃ j, i + 2 ≤ j ∧ isPrefixAt s j ['}', '}'] = true ∧ L = j + 2 - i := by
  intro t
  induction t with
  | zero => intro h; exact tplW2_spec hbase h
  | succ t ih =>
    intro h
    unfold tplT at h
    rcases ho : tplW2 s i accept (base + t + 1)
        (runLength isPySpace s (base + t + 1)) with _ | L2
    · rw [ho] at h
      simp only [Option.none_orElse] at h
      exact ih h
    · rw [ho] at h
      simp only [Option.some_orElse] at h
      cases h
      exact tplW2_spec (by omega) ho

theorem tplW1_spec {s : List Char} {i : Nat} {accept : Nat → Bool}
    {L : Nat} :
    ∀ {w : Nat}, tplW1 s i accept w = some L →
      ∃ j, i + 2 ≤ j ∧ isPrefixAt s j ['}', '}'] = true ∧ L = j + 2 - i := by
  intro w
  induction w with
  | zero => intro h; exact tplT_spec (by omega) h
  | succ w ih =>
    intro h
    unfold tplW1 at h
    rcases ho : tplT s i accept (i + 2 + w + 1)
        (runLength isTitleChar s (i + 2 + w + 1)) with _ | L2
    · rw [ho] at h
      simp only [Option.none_orElse] at h
      exact ih h
    · rw [ho] at h
      simp only [Option.some_orElse] at h
      cases h
      exact tplT_spec (by omega) ho

theorem tplPatternFirst_shape {s : List Char} {i L : Nat}
    {accept : Nat → Bool} (h : tplPatternFirst s i accept = some L) :
    isPrefixAt s i ['{', '{'] = true ∧
    ∃ j, i + 2 ≤ j ∧ isPrefixAt s j ['}', '}'] = true ∧ L = j + 2 - i := by
  unfold tplPatternFirst at h
  split_ifs at h with h1
  exact ⟨h1, tplW1_spec h⟩

theorem templateNotParamAt_shape {s : List Char} {i L : Nat}
    (h : templateNotParamAt s i = some L) :
    isPrefixAt s i ['{', '{'] = true ∧
    ∃ j, i + 2 ≤ j ∧ isPrefixAt s j ['}', '}'] = true ∧ L = j + 2 - i := by
  unfold templateNotParamAt at h
  cases h1 : tplPatternFirst s i (fun L => ¬(s[i + L]? = some '}')) with
  | some L2 =>
    rw [h1] at h
    cases h
    exact tplPatternFirst_shape h1
  | none =>
    rw [h1] at h
    split_ifs at h with h2
    exact tplPatternFirst_shape h

theorem shape_good2 {s : List Char} {i L : Nat}
    (hopen : isPrefixAt s i ['{', '{'] = true)
    (hsh : ∃ j, i + 2 ≤ j ∧ isPrefixAt s j ['}', '}'] = true ∧
      L = j + 2 - i) :
    i + L ≤ s.length ∧ 0 < L ∧
    braceCount (maskInner2 (groupOf s (i, i + L)))
      < braceCount (groupOf s (i, i + L)) := by
  obtain ⟨j, hij, hcl, hL⟩ := hsh
  obtain ⟨hb1, hb2, hb3⟩ := group_bc2 hij hL hopen hcl
  exact ⟨hb1, hb2, by omega⟩

theorem pfMatchAt_good : GoodPass pfMatchAt maskInner2 := by
  intro s i L h
  obtain ⟨hopen, hsh⟩ := pfMatchAt_shape h
  exact shape_good2 hopen hsh

theorem templateNotParamAt_good : GoodPass templateNotParamAt maskInner2 := by
  intro s i L h
  obtain ⟨hopen, hsh⟩ := templateNotParamAt_shape h
  exact shape_good2 hopen hsh


theorem replaceAll_bc_le {cur pat new : List Char}
    (hb : braceCount new ≤ braceCount pat) :
    braceCount (replaceAll cur pat new) ≤ braceCount cur :=
  replaceAllGo_bc_le hb cur.length cur

theorem replaceAll_bc_lt {cur pat new : List Char} (hne : pat ≠ [])
    (hb : braceCount new < braceCount pat) (hinf : pat <:+: cur) :
    braceCount (replaceAll cur pat new) < braceCount cur :=
  replaceAllGo_bc_lt hne hb cur.length cur (le_refl _) hinf

theorem groupOf_length {s : List Char} {a L : Nat} (h : a + L ≤ s.length) :
    (groupOf s (a, a + L)).length = L := by
  unfold groupOf
  rw [Nat.add_sub_cancel_left, List.length_take, List.length_drop]
  omega

theorem groupOf_infix {s : List Char} {a L : Nat} (h : a + L ≤ s.length) :
    groupOf s (a, a + L) <:+: s := by
  refine ⟨s.take a, (s.drop a).drop L, ?_⟩
  unfold groupOf
  rw [Nat.add_sub_cancel_left, List.append_assoc, List.take_append_drop,
    List.take_append_drop]

theorem maskFold_bc_le {matchAt : List Char → Nat → Option Nat}
    {maskf : List Char → List Char} (hg : GoodPass matchAt maskf)
    (s : List Char) :
    ∀ (ms : List (Nat × Nat)) (cur : List Char),
      (∀ m ∈ ms, ∃ L, matchAt s m.1 = some L ∧ m.2 = m.1 + L) →
      braceCount (ms.foldl (fun cur sp =>
        replaceAll cur (groupOf s sp) (maskf (groupOf s sp))) cur)
        ≤ braceCount cur := by
  intro ms
  induction ms with
  | nil => intro cur _; exact le_refl _
  | cons m rest ih =>
    intro cur hms
    obtain ⟨L, hL, he⟩ := hms m (by simp)
    have hgm := (hg s m.1 L hL).2.2
    have hmm : m = (m.1, m.1 + L) := by
      rw [← he]
    rw [List.foldl_cons]
    have hstep : braceCount (replaceAll cur (groupOf s m)
        (maskf (groupOf s m))) ≤ braceCount cur := by
      apply replaceAll_bc_le
      rw [hmm]
      exact le_of_lt hgm
    exact le_trans (ih _ (fun x hx => hms x (by simp [hx]))) hstep

theorem maskMatches_bc_lt {matchAt : List Char → Nat → Option Nat}
    {maskf : List Char → List Char} (hg : GoodPass matchAt maskf)
    {s : List Char} {m : Nat × Nat} {rest : List (Nat × Nat)}
    (hms : ∀ x ∈ m :: rest, ∃ L, matchAt s x.1 = some L ∧ x.2 = x.1 + L) :
    braceCount (maskMatches s (m :: rest) maskf) < braceCount s := by
  unfold maskMatches
  rw [List.foldl_cons]
  obtain ⟨L, hL, he⟩ := hms m (by simp)
  obtain ⟨hfit, hpos, hgm⟩ := hg s m.1 L hL
  have hmm : m = (m.1, m.1 + L) := by rw [← he]
  have hne : groupOf s m ≠ [] := by
    rw [hmm]
    intro hz
    have := groupOf_length hfit
    rw [hz] at this
    simp at this
    omega
  have hstep : braceCount (replaceAll s (groupOf s m)
      (maskf (groupOf s m))) < braceCount s := by
    apply replaceAll_bc_lt hne
    · rw [hmm]; exact hgm
    · rw [hmm]; exact groupOf_infix hfit
  exact lt_of_le_of_lt
    (maskFold_bc_le hg s rest _ (fun x hx => hms x (by simp [hx]))) hstep

theorem innerLoop_spec {matchAt : List Char → Nat → Option Nat}
    {maskf : List Char → List Char} (hg : GoodPass matchAt maskf) :
    ∀ (fuel : Nat) (s : List Char) (acc : List (Nat × Nat)),
      braceCount s < fuel →
      ∃ s2 sp2 f2, innerLoop matchAt maskf fuel s acc = some (s2, sp2, f2) ∧
        braceCount s2 ≤ braceCount s ∧
        (f2 = true → braceCount s2 < braceCount s) := by
  intro fuel
  induction fuel with
  | zero => intro s acc h; omega
  | succ fuel ih =>
    intro s acc h
    cases hfi : finditer matchAt s with
    | nil =>
      refine ⟨s, acc, false, ?_, le_refl _, by simp⟩
      unfold innerLoop
      simp only [hfi]
    | cons m ms =>
      have hmem : ∀ x ∈ m :: ms, ∃ L, matchAt s x.1 = some L ∧
          x.2 = x.1 + L := by
        intro x hx
        rw [← hfi] at hx
        obtain ⟨L, hL, he, _, _⟩ := finditerGo_mem hx
        exact ⟨L, hL, he⟩
      have hlt : braceCount (maskMatches s (m :: ms) maskf) < braceCount s :=
        maskMatches_bc_lt hg hmem
      obtain ⟨s2, sp2, f2, hrec, hle, _⟩ :=
        ih (maskMatches s (m :: ms) maskf) (acc ++ (m :: ms)) (by omega)
      refine ⟨s2, sp2, true, ?_, by omega, fun _ => by omega⟩
      unfold innerLoop
      simp only [hfi, hrec]

theorem loneOpenGo_bc_le : ∀ (prev : Option Char) (s : List Char),
    braceCount (loneOpenGo prev s) ≤ braceCount s := by
  intro prev s
  induction s generalizing prev with
  | nil => exact le_refl _
  | cons c rest ih =>
    unfold loneOpenGo
    have hih := ih (some c)
    by_cases hB : (c == '{' && prev != some '{' &&
        (match rest.head? with
         | some d => d != '{'
         | none => false)) = true
    · rw [if_pos hB, braceCount_cons, braceCount_cons]
      have hc : c = '{' := by
        have hBc := hB
        simp only [Bool.and_eq_true, beq_iff_eq] at hBc
        exact hBc.1.1
      have e1 : isBrace '_' = false := by decide
      have e2 : isBrace c = true := by rw [hc]; decide
      rw [e1, e2]
      simp only [if_false, if_true, Bool.false_eq_true]
      omega
    · rw [if_neg hB, braceCount_cons, braceCount_cons]
      omega

theorem loneCloseGo_bc_le : ∀ (prev : Option Char) (s : List Char),
    braceCount (loneCloseGo prev s) ≤ braceCount s := by
  intro prev s
  induction s generalizing prev with
  | nil => exact le_refl _
  | cons c rest ih =>
    unfold loneCloseGo
    have hih := ih (some c)
    by_cases hB : (c == '}' && prev != some '}' &&
        (match rest.head? with
         | some d => d != '}'
         | none => false)) = true
    · rw [if_pos hB, braceCount_cons, braceCount_cons]
      have hc : c = '}' := by
        have hBc := hB
        simp only [Bool.and_eq_true, beq_iff_eq] at hBc
        exact hBc.1.1
      have e1 : isBrace '_' = false := by decide
      have e2 : isBrace c = true := by rw [hc]; decide
      rw [e1, e2]
      simp only [if_false, if_true, Bool.false_eq_true]
      omega
    · rw [if_neg hB, braceCount_cons, braceCount_cons]
      omega

theorem map_openMask_bc_le (l : List Char) :
    braceCount (l.map (fun c => if c = '{' then '_' else c))
      ≤ braceCount l := by
  induction l with
  | nil => exact le_refl _
  | cons c rest ih =>
    rw [List.map_cons, braceCount_cons, braceCount_cons]
    split_ifs with h1 <;> simp_all [isBrace] <;> omega

theorem map_closeMask_bc_le (l : List Char) :
    braceCount (l.map (fun c => if c = '}' then '_' else c))
      ≤ braceCount l := by
  induction l with
  | nil => exact le_refl _
  | cons c rest ih =>
    rw [List.map_cons, braceCount_cons, braceCount_cons]
    split_ifs with h1 <;> simp_all [isBrace] <;> omega

theorem rpartitionMask_bc_le (s : List Char) :
    braceCount (rpartitionMask s) ≤ braceCount s := by
  unfold rpartitionMask
  rw [braceCount_append]
  have hs : (s.reverse.dropWhile (fun c => c ≠ '}')).reverse ++
      (s.reverse.takeWhile (fun c => c ≠ '}')).reverse = s := by
    rw [← List.reverse_append, List.takeWhile_append_dropWhile,
      List.reverse_reverse]
  have := map_openMask_bc_le (s.reverse.takeWhile (fun c => c ≠ '}')).reverse
  calc braceCount (s.reverse.dropWhile (fun c => c ≠ '}')).reverse +
        braceCount ((s.reverse.takeWhile (fun c => c ≠ '}')).reverse.map
          (fun c => if c = '{' then '_' else c))
      ≤ braceCount (s.reverse.dropWhile (fun c => c ≠ '}')).reverse +
        braceCount (s.reverse.takeWhile (fun c => c ≠ '}')).reverse := by omega
    _ = braceCount s := by rw [← braceCount_append, hs]

theorem partitionMask_bc_le (s : List Char) :
    braceCount (partitionMask s) ≤ braceCount s := by
  unfold partitionMask
  rw [braceCount_append]
  have hs : s.takeWhile (fun c => c ≠ '{') ++
      s.dropWhile (fun c => c ≠ '{') = s := by
    rw [List.takeWhile_append_dropWhile]
  have := map_closeMask_bc_le (s.takeWhile (fun c => c ≠ '{'))
  calc braceCount ((s.takeWhile (fun c => c ≠ '{')).map
          (fun c => if c = '}' then '_' else c)) +
        braceCount (s.dropWhile (fun c => c ≠ '{'))
      ≤ braceCount (s.takeWhile (fun c => c ≠ '{')) +
        braceCount (s.dropWhile (fun c => c ≠ '{')) := by omega
    _ = braceCount s := by rw [← braceCount_append, hs]

theorem outerPass_spec (s : List Char) (ps pfs ts : List (Nat × Nat)) :
    ∃ s7 a f, outerPass s ps pfs ts = some (s7, a, f) ∧
      braceCount s7 ≤ braceCount s ∧
      (f = true → braceCount s7 < braceCount s) := by
  have h4 : braceCount (partitionMask (rpartitionMask (loneClose
      (loneOpen s)))) ≤ braceCount s := by
    have h1 := loneOpenGo_bc_le none s
    have h2 := loneCloseGo_bc_le none (loneOpen s)
    have h3 := rpartitionMask_bc_le (loneClose (loneOpen s))
    have h5 := partitionMask_bc_le (rpartitionMask (loneClose (loneOpen s)))
    unfold loneClose loneOpen at h2 h3 h5 ⊢
    omega
  obtain ⟨s5, ps2, f1, hr1, hle1, hlt1⟩ := innerLoop_spec paramMatchAt_good
    (braceCount (partitionMask (rpartitionMask (loneClose (loneOpen s)))) + 1)
    (partitionMask (rpartitionMask (loneClose (loneOpen s)))) ps (by omega)
  obtain ⟨s6, pfs2, f2, hr2, hle2, hlt2⟩ := innerLoop_spec pfMatchAt_good
    (braceCount s5 + 1) s5 pfs (by omega)
  obtain ⟨s7, ts2, f3, hr3, hle3, hlt3⟩ := innerLoop_spec
    templateNotParamAt_good (braceCount s6 + 1) s6 ts (by omega)
  refine ⟨s7, (ps2, pfs2, ts2), f1 || f2 || f3, ?_, by omega, ?_⟩
  · unfold outerPass innerLoopRun
    simp only [hr1, hr2, hr3]
  · intro hf
    rcases Bool.or_eq_true_iff.mp hf with hf12 | hf3
    · rcases Bool.or_eq_true_iff.mp hf12 with hf1 | hf2
      · have := hlt1 hf1; omega
      · have := hlt2 hf2; omega
    · have := hlt3 hf3; omega

theorem outerLoop_total :
    ∀ (fuel : Nat) (s : List Char) (ps pfs ts : List (Nat × Nat)),
      braceCount s < fuel → ∃ r, outerLoop fuel s ps pfs ts = some r := by
  intro fuel
  induction fuel with
  | zero => intro s ps pfs ts h; omega
  | succ fuel ih =>
    intro s ps pfs ts h
    obtain ⟨s7, a, f, hop, hle, hlt⟩ := outerPass_spec s ps pfs ts
    cases f with
    | true =>
      have hstrict := hlt rfl
      obtain ⟨r, hr⟩ := ih s7 a.1 a.2.1 a.2.2 (by omega)
      refine ⟨r, ?_⟩
      unfold outerLoop
      simp only [hop, if_true]
      exact hr
    | false =>
      refine ⟨a, ?_⟩
      unfold outerLoop
      simp only [hop]
      rfl

/-- C3: the tokenizer is total — its masking fixpoint loop terminates within
`braceCount + 1` passes (each productive pass strictly reduces the number of
brace characters) and `_get_spans` returns a span table for every input,
never an error. -/
theorem claim_C3 (s : List Char) : ∃ tbl, getSpans s = some tbl := by
  obtain ⟨r, hr⟩ := outerLoop_total
    (braceCount (preMask wikilinkMatchAt maskBraces
      (preMask nowikiMatchAt maskFull
        (preMask commentMatchAt maskFull s).2).2).2 + 1)
    (preMask wikilinkMatchAt maskBraces
      (preMask nowikiMatchAt maskFull
        (preMask commentMatchAt maskFull s).2).2).2
    [] [] [] (Nat.lt_succ_self _)
  have hg : getSpans s = (outerLoop
      (braceCount (preMask wikilinkMatchAt maskBraces
        (preMask nowikiMatchAt maskFull
          (preMask commentMatchAt maskFull s).2).2).2 + 1)
      (preMask wikilinkMatchAt maskBraces
        (preMask nowikiMatchAt maskFull
          (preMask commentMatchAt maskFull s).2).2).2 [] [] []).map (fun r =>
      [("p", r.1), ("pf", r.2.1), ("t", r.2.2),
       ("wl", (preMask wikilinkMatchAt maskBraces
         (preMask nowikiMatchAt maskFull
           (preMask commentMatchAt maskFull s).2).2).1),
       ("c", (preMask commentMatchAt maskFull s).1),
       ("nw", (preMask nowikiMatchAt maskFull
         (preMask commentMatchAt maskFull s).2).1)]) := rfl
  refine ⟨[("p", r.1), ("pf", r.2.1), ("t", r.2.2),
    ("wl", (preMask wikilinkMatchAt maskBraces
      (preMask nowikiMatchAt maskFull
        (preMask commentMatchAt maskFull s).2).2).1),
    ("c", (preMask commentMatchAt maskFull s).1),
    ("nw", (preMask nowikiMatchAt maskFull
      (preMask commentMatchAt maskFull s).2).1)], ?_⟩
  rw [hg, hr]
  rfl

end WTP
